import Mathlib

/-!
Verification development for the beekeeper Spelling-Bee solvers
(`src/lib.rs`).  The Rust code is shallowly embedded: a Rust `String`
becomes a `List Char` (Rust `char` and Lean `Char` are both Unicode
scalar values), `String::len` (a UTF-8 *byte* count) becomes `byteLen`,
`u32` masks become `Nat` with bitwise operations and an explicit 32-bit
complement, the trie's `HashMap<char, TrieNode>` becomes an association
list queried and updated by key (the Rust code never iterates over the
map, so the association-list order is unobservable), and the two Rust
panic sites (`String::remove(0)` on an empty string, `chunks(0)` /
division by zero for a zero block size) become `Option` results.
-/

/-- A Rust `String`, viewed as its sequence of Unicode scalar values. -/
abbrev Word : Type := List Char

/-- Rust `String::len`: the number of UTF-8 bytes of the word. -/
def byteLen (w : Word) : Nat := (List.map Char.utf8Size w).sum

/-- `const MIN_LENGTH: usize = 4` from `lib.rs`. -/
def MIN_LENGTH : Nat := 4

/-- The `Puzzle` struct.  In the Rust source `outer_letters` is a
`[char; 6]`; the embedding uses a `List Char`, and every theorem is
uniform in the list's length, so the six-element case of the claims is
an instance. -/
structure Puzzle where
  center_letter : Char
  outer_letters : List Char

/-- Loop body of `NaiveSolver::word_is_valid`: walks the word's
characters carrying the `has_center` flag, returning `false` as soon as
a character that is neither the center letter nor an outer letter is
seen. -/
def word_is_valid_go (p : Puzzle) : List Char → Bool → Bool
  | [], has_center => has_center
  | c :: rest, has_center =>
    if c = p.center_letter then word_is_valid_go p rest true
    else if c ∈ p.outer_letters then word_is_valid_go p rest has_center
    else false

/-- `NaiveSolver::word_is_valid`. -/
def word_is_valid (p : Puzzle) (w : Word) : Bool :=
  word_is_valid_go p w false

/-- `NaiveSolver`. -/
structure NaiveSolver where
  words : List Word

/-- `NaiveSolver::new`: keep only the words of byte length ≥ `MIN_LENGTH`. -/
def NaiveSolver.new (word_list : List Word) : NaiveSolver :=
  ⟨word_list.filter (fun w => decide (MIN_LENGTH ≤ byteLen w))⟩

/-- `<NaiveSolver as Solver>::solve`: scan the retained words, skipping
the (already filtered) short ones and keeping the valid ones. -/
def NaiveSolver.solve (s : NaiveSolver) (p : Puzzle) : List Word :=
  s.words.filter (fun w => decide (MIN_LENGTH ≤ byteLen w) && word_is_valid p w)

-- Characterisation of `word_is_valid` ---------------------------------------

theorem word_is_valid_go_iff (p : Puzzle) (l : List Char) (b : Bool) :
    word_is_valid_go p l b = true ↔
      (∀ c ∈ l, c = p.center_letter ∨ c ∈ p.outer_letters) ∧
        (b = true ∨ ∃ c ∈ l, c = p.center_letter) := by
  induction l generalizing b with
  | nil => simp [word_is_valid_go]
  | cons c rest ih =>
    by_cases hc : c = p.center_letter
    · subst hc
      simp only [word_is_valid_go, eq_self_iff_true, if_true, ih,
        List.forall_mem_cons, List.exists_mem_cons_iff]
      tauto
    · by_cases ho : c ∈ p.outer_letters
      · simp only [word_is_valid_go, if_neg hc, if_pos ho, ih,
          List.forall_mem_cons, List.exists_mem_cons_iff]
        tauto
      · simp only [word_is_valid_go, if_neg hc, if_neg ho,
          List.forall_mem_cons, List.exists_mem_cons_iff]
        constructor
        · intro h; exact absurd h (by simp)
        · rintro ⟨⟨h1, -⟩, -⟩
          rcases h1 with h | h
          · exact absurd h hc
          · exact absurd h ho

theorem word_is_valid_iff (p : Puzzle) (w : Word) :
    word_is_valid p w = true ↔
      (∀ c ∈ w, c = p.center_letter ∨ c ∈ p.outer_letters) ∧
        p.center_letter ∈ w := by
  unfold word_is_valid
  rw [word_is_valid_go_iff]
  constructor
  · rintro ⟨h1, h2⟩
    rcases h2 with h2 | ⟨c, hc, rfl⟩
    · exact absurd h2 (by simp)
    · exact ⟨h1, hc⟩
  · rintro ⟨h1, h2⟩
    exact ⟨h1, Or.inr ⟨p.center_letter, h2, rfl⟩⟩

theorem mem_naive_solve (D : List Word) (p : Puzzle) (w : Word) :
    w ∈ (NaiveSolver.new D).solve p ↔
      w ∈ D ∧ MIN_LENGTH ≤ byteLen w ∧
        ((∀ c ∈ w, c = p.center_letter ∨ c ∈ p.outer_letters) ∧
          p.center_letter ∈ w) := by
  simp only [NaiveSolver.solve, NaiveSolver.new, List.mem_filter,
    Bool.and_eq_true, decide_eq_true_eq, word_is_valid_iff]
  tauto

-- Letter Codec ---------------------------------------------------------------

/-- The bit index assigned to a character by `BitmaskSolver::bitmask_letter`:
`0`–`25` for `'a'`–`'z'`, and the reserved index `26` for anything else. -/
def letterIdx (c : Char) : Nat :=
  if c = 'a' then 0 else if c = 'b' then 1 else if c = 'c' then 2
  else if c = 'd' then 3 else if c = 'e' then 4 else if c = 'f' then 5
  else if c = 'g' then 6 else if c = 'h' then 7 else if c = 'i' then 8
  else if c = 'j' then 9 else if c = 'k' then 10 else if c = 'l' then 11
  else if c = 'm' then 12 else if c = 'n' then 13 else if c = 'o' then 14
  else if c = 'p' then 15 else if c = 'q' then 16 else if c = 'r' then 17
  else if c = 's' then 18 else if c = 't' then 19 else if c = 'u' then 20
  else if c = 'v' then 21 else if c = 'w' then 22 else if c = 'x' then 23
  else if c = 'y' then 24 else if c = 'z' then 25 else 26

/-- `BitmaskSolver::bitmask_letter`: the 27-way match `'a' => 1 << 0`,
…, `'z' => 1 << 25`, `_ => 1 << 26`. -/
def bitmask_letter (c : Char) : Nat := 1 <<< letterIdx c

/-- The 26 lowercase ASCII letters, used to state which puzzles are
well formed. -/
def azChars : List Char :=
  ['a', 'b', 'c', 'd', 'e', 'f', 'g', 'h', 'i', 'j', 'k', 'l', 'm',
   'n', 'o', 'p', 'q', 'r', 's', 't', 'u', 'v', 'w', 'x', 'y', 'z']

theorem bitmask_letter_eq_pow (c : Char) : bitmask_letter c = 2 ^ letterIdx c := by
  rw [bitmask_letter, Nat.shiftLeft_eq, one_mul]

/-- The letter pinned down by each non-reserved bit index. -/
def azChar (n : Nat) : Option Char := azChars.get? n

theorem letterIdx_of_not_mem {c : Char} (h : c ∉ azChars) : letterIdx c = 26 := by
  simp only [azChars, List.mem_cons, List.not_mem_nil, or_false] at h
  push_neg at h
  obtain ⟨h1, h2, h3, h4, h5, h6, h7, h8, h9, h10, h11, h12, h13, h14,
    h15, h16, h17, h18, h19, h20, h21, h22, h23, h24, h25, h26⟩ := h
  unfold letterIdx
  rw [if_neg h1, if_neg h2, if_neg h3, if_neg h4, if_neg h5, if_neg h6,
    if_neg h7, if_neg h8, if_neg h9, if_neg h10, if_neg h11, if_neg h12,
    if_neg h13, if_neg h14, if_neg h15, if_neg h16, if_neg h17, if_neg h18,
    if_neg h19, if_neg h20, if_neg h21, if_neg h22, if_neg h23, if_neg h24,
    if_neg h25, if_neg h26]

theorem azChar_letterIdx_of_mem {c : Char} (h : c ∈ azChars) :
    azChar (letterIdx c) = some c := by
  fin_cases h <;> rfl

theorem letterIdx_le (c : Char) : letterIdx c ≤ 26 := by
  by_cases h : c ∈ azChars
  · fin_cases h <;> decide
  · rw [letterIdx_of_not_mem h]

theorem mem_azChars_iff (c : Char) : c ∈ azChars ↔ letterIdx c ≠ 26 := by
  constructor
  · intro h
    fin_cases h <;> decide
  · intro h
    by_contra hmem
    exact h (letterIdx_of_not_mem hmem)

theorem letterIdx_injOn {c d : Char} (hc : letterIdx c ≠ 26)
    (h : letterIdx c = letterIdx d) : c = d := by
  have hd : letterIdx d ≠ 26 := h ▸ hc
  have h1 := azChar_letterIdx_of_mem ((mem_azChars_iff c).mpr hc)
  have h2 := azChar_letterIdx_of_mem ((mem_azChars_iff d).mpr hd)
  rw [h, h2] at h1
  exact (Option.some_injective _ h1).symm

theorem testBit_bitmask_letter (c : Char) (j : Nat) :
    Nat.testBit (bitmask_letter c) j = decide (letterIdx c = j) := by
  rw [bitmask_letter_eq_pow, Nat.testBit_two_pow]

-- Word masks -----------------------------------------------------------------

/-- Insertion of a character into a sorted character list.  `Vec::sort`
in `bitmask_word` is a comparison sort on `char`; since equal characters
are indistinguishable, every comparison sort produces the same output
list, which this insertion sort computes. -/
def insertSorted (c : Char) : List Char → List Char
  | [] => [c]
  | d :: rest => if c ≤ d then c :: d :: rest else d :: insertSorted c rest

/-- `chars.sort()` from `BitmaskSolver::bitmask_word`. -/
def sortChars (l : List Char) : List Char := l.foldr insertSorted []

/-- `chars.dedup()`: removal of consecutive duplicates. -/
def dedupConsec : List Char → List Char
  | [] => []
  | [c] => [c]
  | a :: b :: rest =>
    if a = b then dedupConsec (b :: rest) else a :: dedupConsec (b :: rest)

/-- `BitmaskSolver::bitmask_word`: sort the characters, drop the
duplicates, and OR together the letter bits. -/
def bitmask_word (w : Word) : Nat :=
  (dedupConsec (sortChars w)).foldl (fun m c => m ||| bitmask_letter c) 0

theorem mem_insertSorted (x c : Char) (l : List Char) :
    x ∈ insertSorted c l ↔ x = c ∨ x ∈ l := by
  induction l with
  | nil => simp [insertSorted]
  | cons d rest ih =>
    by_cases h : c ≤ d
    · simp [insertSorted, if_pos h]
    · simp only [insertSorted, if_neg h, List.mem_cons, ih]
      tauto

theorem mem_sortChars (x : Char) (l : List Char) :
    x ∈ sortChars l ↔ x ∈ l := by
  induction l with
  | nil => simp [sortChars]
  | cons c rest ih =>
    simp only [sortChars, List.foldr_cons] at *
    rw [mem_insertSorted, ih, List.mem_cons]

theorem mem_dedupConsec (x : Char) (l : List Char) :
    x ∈ dedupConsec l ↔ x ∈ l := by
  induction l with
  | nil => simp [dedupConsec]
  | cons a tail ih =>
    cases tail with
    | nil => simp [dedupConsec]
    | cons b rest =>
      by_cases h : a = b
      · subst h
        simp only [dedupConsec, eq_self_iff_true, if_true, ih, List.mem_cons]
        tauto
      · simp only [dedupConsec, if_neg h, List.mem_cons, ih]

theorem testBit_foldl_or {α : Type} (f : α → Nat) (l : List α) (init : Nat) (j : Nat) :
    Nat.testBit (l.foldl (fun m x => m ||| f x) init) j =
      (Nat.testBit init j || l.any (fun x => Nat.testBit (f x) j)) := by
  induction l generalizing init with
  | nil => simp
  | cons x rest ih =>
    simp [List.foldl_cons, ih, Nat.testBit_or, Bool.or_assoc]

theorem testBit_bitmask_word (w : Word) (j : Nat) :
    Nat.testBit (bitmask_word w) j = true ↔ ∃ c ∈ w, letterIdx c = j := by
  rw [bitmask_word, testBit_foldl_or]
  simp [List.any_eq_true, testBit_bitmask_letter, mem_dedupConsec,
    mem_sortChars, Nat.zero_testBit]

theorem testBit_bitmask_word_le {w : Word} {j : Nat}
    (h : Nat.testBit (bitmask_word w) j = true) : j ≤ 26 := by
  obtain ⟨c, -, rfl⟩ := (testBit_bitmask_word w j).mp h
  exact letterIdx_le c

-- The flat bitmask solver ----------------------------------------------------

/-- `BitmaskedWord`. -/
structure BitmaskedWord where
  mask : Nat
  word : Word
deriving DecidableEq

/-- `BitmaskSolver`. -/
structure BitmaskSolver where
  bitmasks : List BitmaskedWord

/-- `BitmaskSolver::new`: one `BitmaskedWord` per word of byte length
≥ `MIN_LENGTH`. -/
def BitmaskSolver.new (dictionary : List Word) : BitmaskSolver :=
  ⟨(dictionary.filter (fun w => decide (MIN_LENGTH ≤ byteLen w))).map
    (fun w => ⟨bitmask_word w, w⟩)⟩

/-- The mask of allowed letters: the OR of the outer letters' bits onto
the center letter's bit (the accumulator both solvers' `solve` build
before inverting). -/
def allowed_letter_mask (p : Puzzle) : Nat :=
  p.outer_letters.foldl (fun m l => m ||| bitmask_letter l)
    (bitmask_letter p.center_letter)

/-- `u32::MAX`, for the 32-bit complement. -/
def U32MAX : Nat := 2 ^ 32 - 1

/-- Rust `!m` at type `u32`. -/
def u32not (m : Nat) : Nat := m ^^^ U32MAX

/-- `forbidden_letter_mask` as computed by both bitmask solvers'
`solve`. -/
def forbidden_letter_mask (p : Puzzle) : Nat := u32not (allowed_letter_mask p)

/-- The per-word test of `BitmaskSolver::solve` (also used on block
survivors by `BitmaskBlock::matches`). -/
def maskTest (center_letter_mask forbidden : Nat) (mw : BitmaskedWord) : Bool :=
  decide (mw.mask &&& center_letter_mask ≠ 0) && decide (mw.mask &&& forbidden = 0)

/-- `<BitmaskSolver as Solver>::solve`. -/
def BitmaskSolver.solve (s : BitmaskSolver) (p : Puzzle) : List Word :=
  let center_letter_mask := bitmask_letter p.center_letter
  let forbidden := forbidden_letter_mask p
  (s.bitmasks.filter (maskTest center_letter_mask forbidden)).map
    (fun mw => mw.word)

theorem nat_eq_zero_iff_testBit (n : Nat) :
    n = 0 ↔ ∀ j, Nat.testBit n j = false :=
  ⟨fun h j => h ▸ Nat.zero_testBit j,
   fun h => Nat.eq_of_testBit_eq fun j => by rw [h j, Nat.zero_testBit]⟩

theorem and_ne_zero_iff (a b : Nat) :
    a &&& b ≠ 0 ↔ ∃ j, Nat.testBit a j = true ∧ Nat.testBit b j = true := by
  rw [Ne, nat_eq_zero_iff_testBit]
  push_neg
  constructor
  · rintro ⟨j, hj⟩
    rw [Nat.testBit_and] at hj
    refine ⟨j, ?_, ?_⟩ <;> revert hj <;>
      cases Nat.testBit a j <;> cases Nat.testBit b j <;> simp
  · rintro ⟨j, h1, h2⟩
    exact ⟨j, by rw [Nat.testBit_and, h1, h2]; simp⟩

theorem and_eq_zero_iff (a b : Nat) :
    a &&& b = 0 ↔ ∀ j, ¬(Nat.testBit a j = true ∧ Nat.testBit b j = true) := by
  rw [nat_eq_zero_iff_testBit]
  constructor
  · intro h j
    have := h j
    rw [Nat.testBit_and] at this
    revert this
    cases Nat.testBit a j <;> cases Nat.testBit b j <;> simp
  · intro h j
    rw [Nat.testBit_and]
    have := h j
    revert this
    cases Nat.testBit a j <;> cases Nat.testBit b j <;> simp

theorem testBit_allowed (p : Puzzle) (j : Nat) :
    Nat.testBit (allowed_letter_mask p) j = true ↔
      letterIdx p.center_letter = j ∨ ∃ o ∈ p.outer_letters, letterIdx o = j := by
  rw [allowed_letter_mask, testBit_foldl_or]
  simp [List.any_eq_true, testBit_bitmask_letter]

theorem testBit_allowed_le {p : Puzzle} {j : Nat}
    (h : Nat.testBit (allowed_letter_mask p) j = true) : j ≤ 26 := by
  rcases (testBit_allowed p j).mp h with h | ⟨o, -, h⟩
  · exact h ▸ letterIdx_le _
  · exact h ▸ letterIdx_le _

theorem testBit_forbidden (p : Puzzle) (j : Nat) (hj : j < 32) :
    Nat.testBit (forbidden_letter_mask p) j =
      !Nat.testBit (allowed_letter_mask p) j := by
  rw [forbidden_letter_mask, u32not, U32MAX, Nat.testBit_xor,
    Nat.testBit_two_pow_sub_one, decide_eq_true hj]
  cases Nat.testBit (allowed_letter_mask p) j <;> rfl

/-- The first half of the per-word test, in terms of characters. -/
theorem center_test_iff (w : Word) (p : Puzzle) :
    bitmask_word w &&& bitmask_letter p.center_letter ≠ 0 ↔
      ∃ c ∈ w, letterIdx c = letterIdx p.center_letter := by
  rw [and_ne_zero_iff]
  constructor
  · rintro ⟨j, h1, h2⟩
    rw [testBit_bitmask_letter, decide_eq_true_eq] at h2
    obtain ⟨c, hc, hcj⟩ := (testBit_bitmask_word w j).mp h1
    exact ⟨c, hc, by rw [hcj, h2]⟩
  · rintro ⟨c, hc, hcj⟩
    refine ⟨letterIdx c, (testBit_bitmask_word w _).mpr ⟨c, hc, rfl⟩, ?_⟩
    rw [testBit_bitmask_letter, hcj, decide_eq_true_eq]

/-- The second half of the per-word test, in terms of characters. -/
theorem forbidden_test_iff (w : Word) (p : Puzzle) :
    bitmask_word w &&& forbidden_letter_mask p = 0 ↔
      ∀ c ∈ w, letterIdx c = letterIdx p.center_letter ∨
        ∃ o ∈ p.outer_letters, letterIdx o = letterIdx c := by
  rw [and_eq_zero_iff]
  constructor
  · intro h c hc
    have hle : letterIdx c ≤ 26 := letterIdx_le c
    have h1 : Nat.testBit (bitmask_word w) (letterIdx c) = true :=
      (testBit_bitmask_word w _).mpr ⟨c, hc, rfl⟩
    have h2 : Nat.testBit (forbidden_letter_mask p) (letterIdx c) = false := by
      have h3 := h (letterIdx c)
      rw [not_and] at h3
      simpa using h3 h1
    rw [testBit_forbidden p _ (by omega)] at h2
    have hal : Nat.testBit (allowed_letter_mask p) (letterIdx c) = true := by
      revert h2
      cases Nat.testBit (allowed_letter_mask p) (letterIdx c) <;> simp
    rcases (testBit_allowed p _).mp hal with h | ⟨o, ho, hoj⟩
    · exact Or.inl h.symm
    · exact Or.inr ⟨o, ho, hoj⟩
  · rintro h j ⟨h1, h2⟩
    obtain ⟨c, hc, rfl⟩ := (testBit_bitmask_word w j).mp h1
    have hal : Nat.testBit (allowed_letter_mask p) (letterIdx c) = true := by
      rcases h c hc with h3 | ⟨o, ho, hoj⟩
      · exact (testBit_allowed p _).mpr (Or.inl h3.symm)
      · exact (testBit_allowed p _).mpr (Or.inr ⟨o, ho, hoj⟩)
    rw [testBit_forbidden p _ (by have := letterIdx_le c; omega), hal] at h2
    exact Bool.noConfusion h2

theorem mem_bitmask_solve (D : List Word) (p : Puzzle) (w : Word) :
    w ∈ (BitmaskSolver.new D).solve p ↔
      w ∈ D ∧ MIN_LENGTH ≤ byteLen w ∧
        ((∃ c ∈ w, letterIdx c = letterIdx p.center_letter) ∧
          ∀ c ∈ w, letterIdx c = letterIdx p.center_letter ∨
            ∃ o ∈ p.outer_letters, letterIdx o = letterIdx c) := by
  simp only [BitmaskSolver.solve, BitmaskSolver.new, List.mem_map,
    List.mem_filter, maskTest, Bool.and_eq_true, decide_eq_true_eq]
  constructor
  · rintro ⟨mw, ⟨⟨w0, ⟨hw0D, hw0len⟩, rfl⟩, h1, h2⟩, rfl⟩
    exact ⟨hw0D, hw0len, (center_test_iff _ p).mp h1, (forbidden_test_iff _ p).mp h2⟩
  · rintro ⟨hD, hlen, h1, h2⟩
    exact ⟨⟨bitmask_word w, w⟩, ⟨⟨w, ⟨hD, hlen⟩, rfl⟩, (center_test_iff w p).mpr h1,
      (forbidden_test_iff w p).mpr h2⟩, rfl⟩

-- The block bitmask solver ---------------------------------------------------

/-- Lexicographic comparison of words, mirroring `Vec::<String>::sort`
(Rust compares strings by bytes; UTF-8 preserves scalar-value order, so
character-wise comparison agrees).  Only the multiset of the sorted
output matters to the theorems below. -/
def lexLe : Word → Word → Bool
  | [], _ => true
  | _ :: _, [] => false
  | a :: as, b :: bs => if a < b then true else if a = b then lexLe as bs else false

/-- Insertion step of the dictionary sort. -/
def insertSortedW (w : Word) : List Word → List Word
  | [] => [w]
  | v :: rest => if lexLe w v then w :: v :: rest else v :: insertSortedW w rest

/-- `sorted.sort()` from `BitmaskBlockSolver::new`, as a comparison
sort on words. -/
def sortWords (l : List Word) : List Word := l.foldr insertSortedW []

theorem mem_insertSortedW (x w : Word) (l : List Word) :
    x ∈ insertSortedW w l ↔ x = w ∨ x ∈ l := by
  induction l with
  | nil => simp [insertSortedW]
  | cons v rest ih =>
    by_cases h : lexLe w v = true
    · simp [insertSortedW, if_pos h]
    · simp only [insertSortedW, if_neg h, List.mem_cons, ih]
      tauto

theorem mem_sortWords (x : Word) (l : List Word) :
    x ∈ sortWords l ↔ x ∈ l := by
  induction l with
  | nil => simp [sortWords]
  | cons w rest ih =>
    simp only [sortWords, List.foldr_cons] at *
    rw [mem_insertSortedW, ih, List.mem_cons]

/-- `slice::chunks` for a positive chunk size.  (For a zero chunk size
Rust panics; the solver constructor models that panic with `none` and
never calls `chunksOf` with `0`.) -/
def chunksOf {α : Type} (k : Nat) : List α → List (List α)
  | [] => []
  | a :: rest =>
    if k = 0 then []
    else (a :: rest).take k :: chunksOf k ((a :: rest).drop k)
termination_by l => l.length
decreasing_by
  rename_i h
  simp only [List.length_drop, List.length_cons]
  omega

theorem chunksOf_flatten {α : Type} (k : Nat) (hk : k ≠ 0) (l : List α) :
    (chunksOf k l).flatten = l := by
  match l with
  | [] => rw [chunksOf]; rfl
  | a :: rest =>
    rw [chunksOf, if_neg hk, List.flatten_cons,
      chunksOf_flatten k hk ((a :: rest).drop k), List.take_append_drop]
termination_by l.length
decreasing_by
  simp only [List.length_drop, List.length_cons]
  omega

/-- `BitmaskBlock`. -/
structure BitmaskBlock where
  common_chars_mask : Nat
  missing_chars_mask : Nat
  words : List BitmaskedWord

/-- `BitmaskBlock::new`: the running `&=` / `|=` of the loop are the
corresponding folds over the masked words, starting from `!0u32` and
`0`. -/
def BitmaskBlock.new (ws : List Word) : BitmaskBlock :=
  let masked_words := ws.map (fun w => BitmaskedWord.mk (bitmask_word w) w)
  { common_chars_mask := masked_words.foldl (fun m mw => m &&& mw.mask) U32MAX
    missing_chars_mask := masked_words.foldl (fun m mw => m ||| mw.mask) 0
    words := masked_words }

/-- `BitmaskBlock::matches`. -/
def BitmaskBlock.matches (b : BitmaskBlock)
    (center_letter_mask forbidden : Nat) : Option (List Word) :=
  if b.common_chars_mask &&& forbidden ≠ 0 then none
  else if b.missing_chars_mask &&& center_letter_mask = 0 then none
  else
    let result := (b.words.filter (maskTest center_letter_mask forbidden)).map
      (fun mw => mw.word)
    if result.length = 0 then none else some result

/-- `BitmaskBlockSolver`. -/
structure BitmaskBlockSolver where
  blocks : List BitmaskBlock

/-- `BitmaskBlockSolver::new`.  With `chunk_size == 0` the Rust code
panics (`dictionary.len() / chunk_size` divides by zero, and
`chunks(0)` asserts); the embedding returns `none` there. -/
def BitmaskBlockSolver.new (dictionary : List Word) (chunk_size : Nat) :
    Option BitmaskBlockSolver :=
  if chunk_size = 0 then none
  else some ⟨(chunksOf chunk_size
    (sortWords (dictionary.filter (fun w => decide (MIN_LENGTH ≤ byteLen w))))).map
    BitmaskBlock.new⟩

/-- `<BitmaskBlockSolver as Solver>::solve`: the loop appending each
block's matches. -/
def BitmaskBlockSolver.solve (s : BitmaskBlockSolver) (p : Puzzle) : List Word :=
  let center_letter_mask := bitmask_letter p.center_letter
  let forbidden := forbidden_letter_mask p
  s.blocks.foldl (fun result b =>
    match b.matches center_letter_mask forbidden with
    | some ms => result ++ ms
    | none => result) []

theorem testBit_foldl_and {α : Type} (f : α → Nat) (l : List α) (init : Nat) (j : Nat) :
    Nat.testBit (l.foldl (fun m x => m &&& f x) init) j =
      (Nat.testBit init j && l.all (fun x => Nat.testBit (f x) j)) := by
  induction l generalizing init with
  | nil => simp
  | cons x rest ih =>
    simp [List.foldl_cons, ih, Nat.testBit_and, Bool.and_assoc]

theorem testBit_common (ws : List Word) (j : Nat) :
    Nat.testBit (BitmaskBlock.new ws).common_chars_mask j =
      (decide (j < 32) && ws.all (fun w => Nat.testBit (bitmask_word w) j)) := by
  simp only [BitmaskBlock.new, List.foldl_map, testBit_foldl_and, List.all_map]
  rw [U32MAX, Nat.testBit_two_pow_sub_one]

theorem testBit_missing (ws : List Word) (j : Nat) :
    Nat.testBit (BitmaskBlock.new ws).missing_chars_mask j =
      ws.any (fun w => Nat.testBit (bitmask_word w) j) := by
  simp only [BitmaskBlock.new, List.foldl_map, testBit_foldl_or, List.any_map]
  rw [Nat.zero_testBit, Bool.false_or]

/-- Soundness of the first rejection rule: if some forbidden bit is
common to every word of the block, every word's mask meets the
forbidden mask. -/
theorem common_reject_sound {ws : List Word} {fm : Nat}
    (h : (BitmaskBlock.new ws).common_chars_mask &&& fm ≠ 0)
    {w : Word} (hw : w ∈ ws) : bitmask_word w &&& fm ≠ 0 := by
  obtain ⟨j, h1, h2⟩ := (and_ne_zero_iff _ _).mp h
  rw [testBit_common, Bool.and_eq_true, List.all_eq_true] at h1
  exact (and_ne_zero_iff _ _).mpr ⟨j, h1.2 w hw, h2⟩

/-- Soundness of the second rejection rule: a word's mask is contained
in the block's union mask, so if the union misses the center bit every
word does. -/
theorem missing_reject_sound {ws : List Word} {cm : Nat}
    (h : (BitmaskBlock.new ws).missing_chars_mask &&& cm = 0)
    {w : Word} (hw : w ∈ ws) : bitmask_word w &&& cm = 0 := by
  rw [and_eq_zero_iff] at h ⊢
  intro j hj
  refine h j ⟨?_, hj.2⟩
  rw [testBit_missing, List.any_eq_true]
  exact ⟨w, hw, hj.1⟩

theorem mem_block_result (ws : List Word) (cm fm : Nat) (w : Word) :
    w ∈ ((BitmaskBlock.new ws).words.filter (maskTest cm fm)).map
        (fun mw => mw.word) ↔
      w ∈ ws ∧ maskTest cm fm ⟨bitmask_word w, w⟩ = true := by
  simp only [BitmaskBlock.new, List.mem_map, List.mem_filter, List.map_map]
  constructor
  · rintro ⟨mw, ⟨⟨w0, hw0, rfl⟩, htest⟩, rfl⟩
    exact ⟨hw0, htest⟩
  · rintro ⟨hw, htest⟩
    exact ⟨⟨bitmask_word w, w⟩, ⟨⟨w, hw, rfl⟩, htest⟩, rfl⟩

theorem mem_block_matches (ws : List Word) (cm fm : Nat) (w : Word) :
    (∃ ms, (BitmaskBlock.new ws).matches cm fm = some ms ∧ w ∈ ms) ↔
      w ∈ ws ∧ maskTest cm fm ⟨bitmask_word w, w⟩ = true := by
  simp only [BitmaskBlock.matches]
  by_cases h1 : (BitmaskBlock.new ws).common_chars_mask &&& fm ≠ 0
  · rw [if_pos h1]
    constructor
    · rintro ⟨ms, h, -⟩; exact Option.noConfusion h
    · rintro ⟨hw, htest⟩
      rw [maskTest, Bool.and_eq_true, decide_eq_true_eq, decide_eq_true_eq] at htest
      exact absurd htest.2 (common_reject_sound h1 hw)
  · rw [if_neg h1]
    by_cases h2 : (BitmaskBlock.new ws).missing_chars_mask &&& cm = 0
    · rw [if_pos h2]
      constructor
      · rintro ⟨ms, h, -⟩; exact Option.noConfusion h
      · rintro ⟨hw, htest⟩
        rw [maskTest, Bool.and_eq_true, decide_eq_true_eq, decide_eq_true_eq] at htest
        exact absurd (missing_reject_sound h2 hw) htest.1
    · rw [if_neg h2]
      by_cases h3 : ((BitmaskBlock.new ws).words.filter (maskTest cm fm)).map
          (fun mw => mw.word) = []
      · rw [h3, if_pos (show (([] : List Word)).length = 0 from rfl)]
        constructor
        · rintro ⟨ms, h, -⟩; exact Option.noConfusion h
        · intro hcon
          have hmem := (mem_block_result ws cm fm w).mpr hcon
          rw [h3] at hmem
          exact absurd hmem (List.not_mem_nil w)
      · rw [if_neg (fun hlen => h3 (List.eq_nil_of_length_eq_zero hlen))]
        constructor
        · rintro ⟨ms, hms, hmem⟩
          rw [Option.some_inj] at hms
          exact (mem_block_result ws cm fm w).mp (hms ▸ hmem)
        · intro hcon
          exact ⟨_, rfl, (mem_block_result ws cm fm w).mpr hcon⟩

theorem mem_solve_foldl (blocks : List BitmaskBlock) (cm fm : Nat)
    (acc : List Word) (w : Word) :
    (w ∈ blocks.foldl (fun result b =>
        match b.matches cm fm with
        | some ms => result ++ ms
        | none => result) acc) ↔
      w ∈ acc ∨ ∃ b ∈ blocks, ∃ ms, b.matches cm fm = some ms ∧ w ∈ ms := by
  induction blocks generalizing acc with
  | nil => simp
  | cons b rest ih =>
    rw [List.foldl_cons]
    cases hb : b.matches cm fm with
    | none =>
      simp only [hb, ih, List.exists_mem_cons_iff, hb]
      constructor
      · rintro (h | h)
        · exact Or.inl h
        · exact Or.inr (Or.inr h)
      · rintro (h | ⟨⟨ms, hms, -⟩ | h⟩)
        · exact Or.inl h
        · exact Option.noConfusion hms
        · exact Or.inr h
    | some ms =>
      simp only [hb, ih, List.exists_mem_cons_iff, List.mem_append]
      constructor
      · rintro ((h | h) | h)
        · exact Or.inl h
        · exact Or.inr (Or.inl ⟨ms, rfl, h⟩)
        · exact Or.inr (Or.inr h)
      · rintro (h | ⟨⟨ms2, hms2, hmem⟩ | h⟩)
        · exact Or.inl (Or.inl h)
        · rw [Option.some_inj] at hms2
          exact Or.inl (Or.inr (hms2 ▸ hmem))
        · exact Or.inr h

theorem mem_bitmask_solve_test (D : List Word) (p : Puzzle) (w : Word) :
    w ∈ (BitmaskSolver.new D).solve p ↔
      (w ∈ D ∧ MIN_LENGTH ≤ byteLen w) ∧
        maskTest (bitmask_letter p.center_letter) (forbidden_letter_mask p)
          ⟨bitmask_word w, w⟩ = true := by
  simp only [BitmaskSolver.solve, BitmaskSolver.new, List.mem_map,
    List.mem_filter, decide_eq_true_eq]
  constructor
  · rintro ⟨mw, ⟨⟨w0, ⟨hw0D, hw0len⟩, rfl⟩, htest⟩, rfl⟩
    exact ⟨⟨hw0D, hw0len⟩, htest⟩
  · rintro ⟨⟨hD, hlen⟩, htest⟩
    exact ⟨⟨bitmask_word w, w⟩, ⟨⟨w, ⟨hD, hlen⟩, rfl⟩, htest⟩, rfl⟩

/-- The block solver is extensionally the flat bitmask solver: for any
successfully constructed block solver, membership in its answers agrees
with the flat solver's. -/
theorem mem_blocksolver_solve {D : List Word} {k : Nat} {s : BitmaskBlockSolver}
    (hs : BitmaskBlockSolver.new D k = some s) (p : Puzzle) (w : Word) :
    w ∈ s.solve p ↔ w ∈ (BitmaskSolver.new D).solve p := by
  by_cases hk : k = 0
  · rw [BitmaskBlockSolver.new, if_pos hk] at hs
    exact Option.noConfusion hs
  · rw [BitmaskBlockSolver.new, if_neg hk, Option.some_inj] at hs
    subst hs
    rw [mem_bitmask_solve_test]
    simp only [BitmaskBlockSolver.solve]
    rw [mem_solve_foldl]
    simp only [List.not_mem_nil, false_or]
    constructor
    · rintro ⟨b, hbmem, ms, hms, hwms⟩
      rw [List.mem_map] at hbmem
      obtain ⟨chunk, hchunk, rfl⟩ := hbmem
      obtain ⟨hwchunk, htest⟩ :=
        (mem_block_matches chunk _ _ w).mp ⟨ms, hms, hwms⟩
      have hsorted : w ∈ sortWords (D.filter (fun w => decide (MIN_LENGTH ≤ byteLen w))) := by
        rw [← chunksOf_flatten k hk
          (sortWords (D.filter (fun w => decide (MIN_LENGTH ≤ byteLen w))))]
        exact List.mem_flatten.mpr ⟨chunk, hchunk, hwchunk⟩
      rw [mem_sortWords, List.mem_filter, decide_eq_true_eq] at hsorted
      exact ⟨hsorted, htest⟩
    · rintro ⟨⟨hD, hlen⟩, htest⟩
      have hsorted : w ∈ sortWords (D.filter (fun w => decide (MIN_LENGTH ≤ byteLen w))) := by
        rw [mem_sortWords, List.mem_filter, decide_eq_true_eq]
        exact ⟨hD, hlen⟩
      rw [← chunksOf_flatten k hk
        (sortWords (D.filter (fun w => decide (MIN_LENGTH ≤ byteLen w))))] at hsorted
      obtain ⟨chunk, hchunk, hwchunk⟩ := List.mem_flatten.mp hsorted
      obtain ⟨ms, hms, hwms⟩ :=
        (mem_block_matches chunk _ _ w).mpr ⟨hwchunk, htest⟩
      exact ⟨BitmaskBlock.new chunk, List.mem_map.mpr ⟨chunk, hchunk, rfl⟩,
        ms, hms, hwms⟩

-- The trie solver ------------------------------------------------------------

/-- `TrieNode`.  The Rust `HashMap<char, TrieNode>` children map is
embedded as an association list: the code only ever queries it with
`get`/`get_mut` and inserts absent keys, so the list order is
unobservable. -/
inductive TrieNode where
  | node (is_word : Bool) (children : List (Char × TrieNode))

/-- The `is_word` field. -/
def TrieNode.isWordFlag : TrieNode → Bool
  | .node b _ => b

/-- The `children` field. -/
def TrieNode.children : TrieNode → List (Char × TrieNode)
  | .node _ cs => cs

/-- `HashMap::get` on the children map. -/
def assocGet (c : Char) : List (Char × TrieNode) → Option TrieNode
  | [] => none
  | (k, v) :: rest => if k = c then some v else assocGet c rest

/-- `HashMap::get_mut` followed by in-place mutation: replace the value
stored at an existing key. -/
def updateAssoc (c : Char) (t : TrieNode) : List (Char × TrieNode) → List (Char × TrieNode)
  | [] => []
  | (k, v) :: rest => if k = c then (k, t) :: rest else (k, v) :: updateAssoc c t rest

/-- `HashMap::insert` of a key known to be absent. -/
def insertAssoc (c : Char) (t : TrieNode) (cs : List (Char × TrieNode)) :
    List (Char × TrieNode) :=
  (c, t) :: cs

/-- `child.is_word = true`. -/
def TrieNode.setWord : TrieNode → TrieNode
  | .node _ cs => .node true cs

/-- `TrieNode::add`.  `word.remove(0)` panics on an empty string, which
the embedding models by returning `none`; the branches mirror the Rust
`if let Some(child)` / `else` structure, with `TrieNode::new(word.len() == 0)`
split into its two cases. -/
def TrieNode.add : TrieNode → List Char → Option TrieNode
  | _, [] => none
  | .node is_word cs, first_char :: rest =>
    match assocGet first_char cs with
    | some child =>
      if rest = [] then some (.node is_word (updateAssoc first_char child.setWord cs))
      else
        match child.add rest with
        | some child2 => some (.node is_word (updateAssoc first_char child2 cs))
        | none => none
    | none =>
      if rest = [] then some (.node is_word (insertAssoc first_char (.node true []) cs))
      else
        match TrieNode.add (.node false []) rest with
        | some child2 => some (.node is_word (insertAssoc first_char child2 cs))
        | none => none

/-- The insertion loop of `TrieSolver::new`. -/
def trieNewAux : TrieNode → List Word → Option TrieNode
  | t, [] => some t
  | t, w :: ws =>
    match t.add w with
    | some t2 => trieNewAux t2 ws
    | none => none

/-- `TrieSolver`. -/
structure TrieSolver where
  dictionary : TrieNode

/-- `TrieSolver::new`: insert every word of byte length ≥ `MIN_LENGTH`
into an initially empty root.  `none` models a panic during
construction. -/
def TrieSolver.new (word_list : List Word) : Option TrieSolver :=
  (trieNewAux (.node false [])
    (word_list.filter (fun w => decide (MIN_LENGTH ≤ byteLen w)))).map
    (fun root => ⟨root⟩)

theorem sizeOf_children (t : TrieNode) : sizeOf t.children < sizeOf t := by
  cases t with
  | node b cs =>
    simp only [TrieNode.children, TrieNode.node.sizeOf_spec]
    omega

theorem sizeOf_assocGet {cs : List (Char × TrieNode)} {c : Char} {t : TrieNode}
    (h : assocGet c cs = some t) : sizeOf t < sizeOf cs := by
  induction cs with
  | nil => exact Option.noConfusion h
  | cons p rest ih =>
    obtain ⟨k, v⟩ := p
    rw [assocGet] at h
    by_cases hk : k = c
    · rw [if_pos hk, Option.some_inj] at h
      subst h
      simp only [List.cons.sizeOf_spec, Prod.mk.sizeOf_spec]
      omega
    · rw [if_neg hk] at h
      have := ih h
      simp only [List.cons.sizeOf_spec, Prod.mk.sizeOf_spec]
      omega

mutual
/-- `TrieNode::find_words`: emit the current path when the node closes
a word and the center letter has been used, then recurse through the
center-letter child and each outer-letter child. -/
def find_words (t : TrieNode) (p : Puzzle) (center_letter_count : Nat)
    (path : List Char) : List Word :=
  (if 0 < center_letter_count ∧ t.isWordFlag = true then [path] else []) ++
  (match h : assocGet p.center_letter t.children with
   | some child => find_words child p (center_letter_count + 1) (path ++ [p.center_letter])
   | none => []) ++
  find_words_outer p.outer_letters t.children p center_letter_count path
termination_by (sizeOf t, 0)
decreasing_by
  all_goals simp_wf
  all_goals first
    | (apply Prod.Lex.right; omega)
    | (apply Prod.Lex.left
       first
         | exact lt_trans (sizeOf_assocGet h) (sizeOf_children t)
         | exact sizeOf_children t
         | exact sizeOf_assocGet h)

/-- The `for letter in puzzle.outer_letters` loop of `find_words`. -/
def find_words_outer (letters : List Char) (cs : List (Char × TrieNode))
    (p : Puzzle) (center_letter_count : Nat) (path : List Char) : List Word :=
  match letters with
  | [] => []
  | l :: rest =>
    (match h : assocGet l cs with
     | some child => find_words child p center_letter_count (path ++ [l])
     | none => []) ++
    find_words_outer rest cs p center_letter_count path
termination_by (sizeOf cs, letters.length + 1)
decreasing_by
  all_goals simp_wf
  all_goals first
    | (apply Prod.Lex.right; omega)
    | (apply Prod.Lex.left
       first
         | exact lt_trans (sizeOf_assocGet h) (sizeOf_children t)
         | exact sizeOf_children t
         | exact sizeOf_assocGet h)
end

/-- `<TrieSolver as Solver>::solve`. -/
def TrieSolver.solve (s : TrieSolver) (p : Puzzle) : List Word :=
  find_words s.dictionary p 0 []

/-- The words stored in a trie: paths through existing children ending
at a node whose `is_word` flag is set. -/
def containsWord : TrieNode → List Char → Prop
  | t, [] => t.isWordFlag = true
  | t, c :: rest => ∃ child, assocGet c t.children = some child ∧ containsWord child rest

/-- The suffixes that `find_words` emits below a node, given that
`cnt` center-letter uses are already on the path: the recursion can
take the center edge (counting) or any outer edge (not counting), and
can stop at a word node once the count is positive. -/
def accepts (p : Puzzle) : TrieNode → Nat → List Char → Prop
  | t, cnt, [] => t.isWordFlag = true ∧ 0 < cnt
  | t, cnt, c :: rest =>
      (c = p.center_letter ∧ ∃ child, assocGet c t.children = some child ∧
        accepts p child (cnt + 1) rest) ∨
      (c ∈ p.outer_letters ∧ ∃ child, assocGet c t.children = some child ∧
        accepts p child cnt rest)

theorem mem_find_words_outer_iff (letters : List Char) (cs : List (Char × TrieNode))
    (p : Puzzle) (cnt : Nat) (path : List Char) (w : Word) :
    w ∈ find_words_outer letters cs p cnt path ↔
      ∃ l ∈ letters, ∃ child, assocGet l cs = some child ∧
        w ∈ find_words child p cnt (path ++ [l]) := by
  induction letters with
  | nil => simp [find_words_outer]
  | cons l rest ih =>
    rw [find_words_outer]
    cases hl : assocGet l cs with
    | some child =>
      simp only [hl, List.mem_append, ih, List.exists_mem_cons_iff]
      constructor
      · rintro (h | h)
        · exact Or.inl ⟨child, rfl, h⟩
        · exact Or.inr h
      · rintro (⟨child2, hc2, h⟩ | h)
        · rw [Option.some_inj] at hc2
          exact Or.inl (hc2 ▸ h)
        · exact Or.inr h
    | none =>
      simp only [hl, List.nil_append, ih, List.exists_mem_cons_iff]
      constructor
      · exact Or.inr
      · rintro (⟨child2, hc2, -⟩ | h)
        · exact Option.noConfusion hc2
        · exact h

theorem sizeOf_trie_pos (t : TrieNode) : 1 ≤ sizeOf t := by
  cases t with
  | node b cs =>
    simp only [TrieNode.node.sizeOf_spec]
    omega

theorem mem_find_words_bounded (p : Puzzle) (n : Nat) :
    ∀ (t : TrieNode), sizeOf t ≤ n → ∀ (cnt : Nat) (path : List Char) (w : Word),
      ((w ∈ find_words t p cnt path) ↔
        ∃ rest, w = path ++ rest ∧ accepts p t cnt rest) := by
  induction n with
  | zero =>
    intro t ht
    have := sizeOf_trie_pos t
    omega
  | succ n ih =>
    intro t ht cnt path w
    have hch : ∀ l child, assocGet l t.children = some child → sizeOf child ≤ n := by
      intro l child hl
      have h1 := sizeOf_assocGet hl
      have h2 := sizeOf_children t
      omega
    rw [find_words]
    cases hc : assocGet p.center_letter t.children with
    | some cchild =>
      simp only [hc]
      constructor
      · intro hmem
        rcases List.mem_append.mp hmem with hm | hout
        · rcases List.mem_append.mp hm with hemit | hcent
          · by_cases hif : 0 < cnt ∧ t.isWordFlag = true
            · rw [if_pos hif, List.mem_singleton] at hemit
              exact ⟨[], by simp [hemit], hif.2, hif.1⟩
            · rw [if_neg hif] at hemit
              exact absurd hemit (List.not_mem_nil w)
          · obtain ⟨rest, hw, hacc⟩ :=
              (ih cchild (hch _ _ hc) (cnt + 1) (path ++ [p.center_letter]) w).mp hcent
            refine ⟨p.center_letter :: rest, by simpa using hw, ?_⟩
            exact Or.inl ⟨rfl, cchild, hc, hacc⟩
        · obtain ⟨l, hlmem, child, hl, hmem2⟩ :=
            (mem_find_words_outer_iff _ _ _ _ _ _).mp hout
          obtain ⟨rest, hw, hacc⟩ := (ih child (hch _ _ hl) cnt (path ++ [l]) w).mp hmem2
          refine ⟨l :: rest, by simpa using hw, ?_⟩
          exact Or.inr ⟨hlmem, child, hl, hacc⟩
      · rintro ⟨rest, rfl, hacc⟩
        cases rest with
        | nil =>
          obtain ⟨hw, hcnt⟩ := hacc
          apply List.mem_append.mpr
          left
          apply List.mem_append.mpr
          left
          rw [if_pos ⟨hcnt, hw⟩]
          simp
        | cons c rest2 =>
          rcases hacc with ⟨rfl, child, hl, hacc2⟩ | ⟨hcmem, child, hl, hacc2⟩
          · rw [hc, Option.some_inj] at hl
            subst hl
            apply List.mem_append.mpr
            left
            apply List.mem_append.mpr
            right
            apply (ih cchild (hch _ _ hc) (cnt + 1) (path ++ [p.center_letter]) _).mpr
            exact ⟨rest2, by simp, hacc2⟩
          · apply List.mem_append.mpr
            right
            apply (mem_find_words_outer_iff _ _ _ _ _ _).mpr
            exact ⟨c, hcmem, child, hl,
              (ih child (hch _ _ hl) cnt (path ++ [c]) _).mpr ⟨rest2, by simp, hacc2⟩⟩
    | none =>
      simp only [hc]
      constructor
      · intro hmem
        rcases List.mem_append.mp hmem with hm | hout
        · rcases List.mem_append.mp hm with hemit | hcent
          · by_cases hif : 0 < cnt ∧ t.isWordFlag = true
            · rw [if_pos hif, List.mem_singleton] at hemit
              exact ⟨[], by simp [hemit], hif.2, hif.1⟩
            · rw [if_neg hif] at hemit
              exact absurd hemit (List.not_mem_nil w)
          · exact absurd hcent (List.not_mem_nil w)
        · obtain ⟨l, hlmem, child, hl, hmem2⟩ :=
            (mem_find_words_outer_iff _ _ _ _ _ _).mp hout
          obtain ⟨rest, hw, hacc⟩ := (ih child (hch _ _ hl) cnt (path ++ [l]) w).mp hmem2
          refine ⟨l :: rest, by simpa using hw, ?_⟩
          exact Or.inr ⟨hlmem, child, hl, hacc⟩
      · rintro ⟨rest, rfl, hacc⟩
        cases rest with
        | nil =>
          obtain ⟨hw, hcnt⟩ := hacc
          apply List.mem_append.mpr
          left
          apply List.mem_append.mpr
          left
          rw [if_pos ⟨hcnt, hw⟩]
          simp
        | cons c rest2 =>
          rcases hacc with ⟨rfl, child, hl, hacc2⟩ | ⟨hcmem, child, hl, hacc2⟩
          · rw [hc] at hl
            exact Option.noConfusion hl
          · apply List.mem_append.mpr
            right
            apply (mem_find_words_outer_iff _ _ _ _ _ _).mpr
            exact ⟨c, hcmem, child, hl,
              (ih child (hch _ _ hl) cnt (path ++ [c]) _).mpr ⟨rest2, by simp, hacc2⟩⟩

theorem mem_find_words_iff (p : Puzzle) (t : TrieNode) (cnt : Nat)
    (path : List Char) (w : Word) :
    (w ∈ find_words t p cnt path) ↔
      ∃ rest, w = path ++ rest ∧ accepts p t cnt rest :=
  mem_find_words_bounded p (sizeOf t) t le_rfl cnt path w

theorem containsWord_nil_iff (t : TrieNode) :
    containsWord t [] ↔ t.isWordFlag = true := Iff.rfl

theorem containsWord_cons_iff (t : TrieNode) (c : Char) (rest : List Char) :
    containsWord t (c :: rest) ↔
      ∃ child, assocGet c t.children = some child ∧ containsWord child rest := Iff.rfl

theorem assocGet_updateAssoc_self {c : Char} {cs : List (Char × TrieNode)}
    {old : TrieNode} (h : assocGet c cs = some old) (t : TrieNode) :
    assocGet c (updateAssoc c t cs) = some t := by
  induction cs with
  | nil => exact Option.noConfusion h
  | cons p rest ih =>
    obtain ⟨k, v⟩ := p
    rw [assocGet] at h
    by_cases hk : k = c
    · rw [updateAssoc, if_pos hk, assocGet, if_pos hk]
    · rw [updateAssoc, if_neg hk, assocGet, if_neg hk]
      rw [if_neg hk] at h
      exact ih h

theorem assocGet_updateAssoc_ne {c d : Char} (hne : d ≠ c) (t : TrieNode)
    (cs : List (Char × TrieNode)) :
    assocGet d (updateAssoc c t cs) = assocGet d cs := by
  induction cs with
  | nil => rfl
  | cons p rest ih =>
    obtain ⟨k, v⟩ := p
    by_cases hk : k = c
    · have hkd : ¬(k = d) := fun h => hne (by rw [← h, hk])
      rw [updateAssoc, if_pos hk, assocGet, assocGet, if_neg hkd, if_neg hkd]
    · rw [updateAssoc, if_neg hk, assocGet, assocGet]
      by_cases hkd : k = d
      · rw [if_pos hkd, if_pos hkd]
      · rw [if_neg hkd, if_neg hkd, ih]

theorem assocGet_insertAssoc_self (c : Char) (t : TrieNode)
    (cs : List (Char × TrieNode)) :
    assocGet c (insertAssoc c t cs) = some t := by
  rw [insertAssoc, assocGet, if_pos rfl]

theorem assocGet_insertAssoc_ne {c d : Char} (hne : d ≠ c) (t : TrieNode)
    (cs : List (Char × TrieNode)) :
    assocGet d (insertAssoc c t cs) = assocGet d cs := by
  rw [insertAssoc, assocGet, if_neg (fun h => hne h.symm)]

theorem isWordFlag_setWord (u : TrieNode) : u.setWord.isWordFlag = true := by
  cases u; rfl

theorem children_setWord (u : TrieNode) : u.setWord.children = u.children := by
  cases u; rfl

theorem containsWord_setWord (u : TrieNode) (v : List Char) :
    containsWord u.setWord v ↔ v = [] ∨ containsWord u v := by
  cases v with
  | nil =>
    rw [containsWord_nil_iff, isWordFlag_setWord]
    simp
  | cons d vrest =>
    rw [containsWord_cons_iff, containsWord_cons_iff, children_setWord]
    simp

theorem not_containsWord_empty (v : List Char) :
    ¬ containsWord (.node false []) v := by
  cases v with
  | nil =>
    rw [containsWord_nil_iff]
    simp [TrieNode.isWordFlag]
  | cons d vrest =>
    rw [containsWord_cons_iff]
    rintro ⟨child, hget, -⟩
    exact Option.noConfusion hget

theorem containsWord_singleton (v : List Char) :
    containsWord (.node true []) v ↔ v = [] := by
  cases v with
  | nil =>
    rw [containsWord_nil_iff]
    simp [TrieNode.isWordFlag]
  | cons d vrest =>
    rw [containsWord_cons_iff]
    constructor
    · rintro ⟨child, hget, -⟩
      exact Option.noConfusion hget
    · intro h
      exact List.noConfusion h

theorem add_isSome : ∀ {w : List Char} (t : TrieNode), w ≠ [] →
    (t.add w).isSome = true := by
  intro w
  induction w with
  | nil => intro t h; exact absurd rfl h
  | cons c rest ih =>
    intro t _
    cases t with
    | node isw cs =>
      simp only [TrieNode.add]
      cases hg : assocGet c cs with
      | some child =>
        simp only [hg]
        by_cases hr : rest = []
        · rw [if_pos hr, Option.isSome_some]
        · rw [if_neg hr]
          have h2 := ih child hr
          cases ha : child.add rest with
          | none => simp [ha] at h2
          | some child2 => simp only [ha, Option.isSome_some]
      | none =>
        simp only [hg]
        by_cases hr : rest = []
        · rw [if_pos hr, Option.isSome_some]
        · rw [if_neg hr]
          have h2 := ih (.node false []) hr
          cases ha : TrieNode.add (.node false []) rest with
          | none => simp [ha] at h2
          | some child2 => simp only [ha, Option.isSome_some]

theorem isWordFlag_add : ∀ {w : List Char} {t t' : TrieNode},
    t.add w = some t' → t'.isWordFlag = t.isWordFlag := by
  intro w t t' h
  cases w with
  | nil =>
    cases t with
    | node isw cs =>
      simp only [TrieNode.add] at h
      exact Option.noConfusion h
  | cons c rest =>
    cases t with
    | node isw cs =>
      simp only [TrieNode.add] at h
      cases hg : assocGet c cs with
      | some child =>
        simp only [hg] at h
        by_cases hr : rest = []
        · rw [if_pos hr, Option.some_inj] at h
          subst h
          rfl
        · rw [if_neg hr] at h
          cases ha : child.add rest with
          | none =>
            simp only [ha] at h
            exact Option.noConfusion h
          | some child2 =>
            simp only [ha, Option.some_inj] at h
            subst h
            rfl
      | none =>
        simp only [hg] at h
        by_cases hr : rest = []
        · rw [if_pos hr, Option.some_inj] at h
          subst h
          rfl
        · rw [if_neg hr] at h
          cases ha : TrieNode.add (.node false []) rest with
          | none =>
            simp only [ha] at h
            exact Option.noConfusion h
          | some child2 =>
            simp only [ha, Option.some_inj] at h
            subst h
            rfl

theorem containsWord_node_nil_iff (isw : Bool) (cs2 cs : List (Char × TrieNode))
    (c : Char) (rest : List Char) :
    containsWord (.node isw cs2) [] ↔
      (([] : List Char) = c :: rest ∨ containsWord (.node isw cs) []) := by
  rw [containsWord_nil_iff, containsWord_nil_iff]
  simp only [TrieNode.isWordFlag]
  constructor
  · exact Or.inr
  · rintro (hcon | hcon)
    · exact List.noConfusion hcon
    · exact hcon

theorem containsWord_node_cons_ne {d c : Char} (hd : d ≠ c) (isw : Bool)
    (cs2 cs : List (Char × TrieNode)) (hget : assocGet d cs2 = assocGet d cs)
    (vrest rest : List Char) :
    containsWord (.node isw cs2) (d :: vrest) ↔
      (d :: vrest = c :: rest ∨ containsWord (.node isw cs) (d :: vrest)) := by
  rw [containsWord_cons_iff, containsWord_cons_iff]
  simp only [TrieNode.children]
  rw [hget]
  constructor
  · exact fun hx => Or.inr hx
  · rintro (hv | hx)
    · injection hv with h1 h2
      exact absurd h1 hd
    · exact hx

theorem containsWord_add : ∀ {w : List Char} {t t' : TrieNode},
    t.add w = some t' → ∀ v, (containsWord t' v ↔ v = w ∨ containsWord t v) := by
  intro w
  induction w with
  | nil =>
    intro t t' h
    cases t with
    | node isw cs =>
      simp only [TrieNode.add] at h
      exact Option.noConfusion h
  | cons c rest ih =>
    intro t t' h v
    cases t with
    | node isw cs =>
      simp only [TrieNode.add] at h
      cases hg : assocGet c cs with
      | some child =>
        simp only [hg] at h
        by_cases hr : rest = []
        · subst hr
          rw [if_pos rfl, Option.some_inj] at h
          subst h
          cases v with
          | nil => exact containsWord_node_nil_iff isw _ cs c []
          | cons d vrest =>
            by_cases hd : d = c
            · subst hd
              rw [containsWord_cons_iff, containsWord_cons_iff]
              simp only [TrieNode.children]
              rw [assocGet_updateAssoc_self hg]
              constructor
              · rintro ⟨ch, hch, hcw⟩
                rw [Option.some_inj] at hch
                subst hch
                rcases (containsWord_setWord child vrest).mp hcw with rfl | hcw2
                · exact Or.inl rfl
                · exact Or.inr ⟨child, hg, hcw2⟩
              · rintro (hv | ⟨ch, hch, hcw⟩)
                · have hv2 : vrest = [] := by injection hv
                  exact ⟨child.setWord, rfl,
                    (containsWord_setWord child vrest).mpr (Or.inl hv2)⟩
                · rw [hg, Option.some_inj] at hch
                  subst hch
                  exact ⟨child.setWord, rfl,
                    (containsWord_setWord child vrest).mpr (Or.inr hcw)⟩
            · exact containsWord_node_cons_ne hd isw _ cs
                (assocGet_updateAssoc_ne hd child.setWord cs) vrest []
        · rw [if_neg hr] at h
          cases ha : child.add rest with
          | none =>
            simp only [ha] at h
            exact Option.noConfusion h
          | some child2 =>
            simp only [ha, Option.some_inj] at h
            subst h
            have ih2 := ih ha
            cases v with
            | nil => exact containsWord_node_nil_iff isw _ cs c rest
            | cons d vrest =>
              by_cases hd : d = c
              · subst hd
                rw [containsWord_cons_iff, containsWord_cons_iff]
                simp only [TrieNode.children]
                rw [assocGet_updateAssoc_self hg]
                constructor
                · rintro ⟨ch, hch, hcw⟩
                  rw [Option.some_inj] at hch
                  subst hch
                  rcases (ih2 vrest).mp hcw with rfl | hcw2
                  · exact Or.inl rfl
                  · exact Or.inr ⟨child, hg, hcw2⟩
                · rintro (hv | ⟨ch, hch, hcw⟩)
                  · have hv2 : vrest = rest := by injection hv
                    exact ⟨child2, rfl, (ih2 vrest).mpr (Or.inl hv2)⟩
                  · rw [hg, Option.some_inj] at hch
                    subst hch
                    exact ⟨child2, rfl, (ih2 vrest).mpr (Or.inr hcw)⟩
              · exact containsWord_node_cons_ne hd isw _ cs
                  (assocGet_updateAssoc_ne hd child2 cs) vrest rest
      | none =>
        simp only [hg] at h
        by_cases hr : rest = []
        · subst hr
          rw [if_pos rfl, Option.some_inj] at h
          subst h
          cases v with
          | nil => exact containsWord_node_nil_iff isw _ cs c []
          | cons d vrest =>
            by_cases hd : d = c
            · subst hd
              rw [containsWord_cons_iff, containsWord_cons_iff]
              simp only [TrieNode.children]
              rw [assocGet_insertAssoc_self]
              constructor
              · rintro ⟨ch, hch, hcw⟩
                rw [Option.some_inj] at hch
                subst hch
                rw [containsWord_singleton] at hcw
                exact Or.inl (by rw [hcw])
              · rintro (hv | ⟨ch, hch, hcw⟩)
                · have hv2 : vrest = [] := by injection hv
                  exact ⟨.node true [], rfl, (containsWord_singleton vrest).mpr hv2⟩
                · rw [hg] at hch
                  exact Option.noConfusion hch
            · exact containsWord_node_cons_ne hd isw _ cs
                (assocGet_insertAssoc_ne hd (.node true []) cs) vrest []
        · rw [if_neg hr] at h
          cases ha : TrieNode.add (.node false []) rest with
          | none =>
            simp only [ha] at h
            exact Option.noConfusion h
          | some child2 =>
            simp only [ha, Option.some_inj] at h
            subst h
            have ih2 := ih ha
            cases v with
            | nil => exact containsWord_node_nil_iff isw _ cs c rest
            | cons d vrest =>
              by_cases hd : d = c
              · subst hd
                rw [containsWord_cons_iff, containsWord_cons_iff]
                simp only [TrieNode.children]
                rw [assocGet_insertAssoc_self]
                constructor
                · rintro ⟨ch, hch, hcw⟩
                  rw [Option.some_inj] at hch
                  subst hch
                  rcases (ih2 vrest).mp hcw with rfl | hcw2
                  · exact Or.inl rfl
                  · exact absurd hcw2 (not_containsWord_empty vrest)
                · rintro (hv | ⟨ch, hch, hcw⟩)
                  · have hv2 : vrest = rest := by injection hv
                    exact ⟨child2, rfl, (ih2 vrest).mpr (Or.inl hv2)⟩
                  · rw [hg] at hch
                    exact Option.noConfusion hch
              · exact containsWord_node_cons_ne hd isw _ cs
                  (assocGet_insertAssoc_ne hd child2 cs) vrest rest

theorem trieNewAux_isSome : ∀ (ws : List Word) (t : TrieNode),
    (∀ w ∈ ws, w ≠ []) → (trieNewAux t ws).isSome = true := by
  intro ws
  induction ws with
  | nil => intro t _; rfl
  | cons w rest ih =>
    intro t h
    rw [trieNewAux]
    cases ha : t.add w with
    | none =>
      have h2 := add_isSome t (h w (List.mem_cons_self _ _))
      simp [ha] at h2
    | some t2 =>
      simp only [ha]
      exact ih t2 (fun v hv => h v (List.mem_cons_of_mem _ hv))

theorem containsWord_trieNewAux : ∀ (ws : List Word) (t t' : TrieNode),
    trieNewAux t ws = some t' → ∀ v,
      (containsWord t' v ↔ v ∈ ws ∨ containsWord t v) := by
  intro ws
  induction ws with
  | nil =>
    intro t t' h v
    rw [trieNewAux, Option.some_inj] at h
    subst h
    simp
  | cons w rest ih =>
    intro t t' h v
    rw [trieNewAux] at h
    cases ha : t.add w with
    | none =>
      simp only [ha] at h
      exact Option.noConfusion h
    | some t2 =>
      simp only [ha] at h
      rw [ih t2 t' h v, containsWord_add ha v, List.mem_cons]
      tauto

theorem byteLen_min_ne_nil {w : Word} (h : MIN_LENGTH ≤ byteLen w) : w ≠ [] := by
  intro hnil
  subst hnil
  simp [byteLen, MIN_LENGTH] at h

theorem accepts_iff (p : Puzzle) : ∀ (rest : List Char) (t : TrieNode) (cnt : Nat),
    accepts p t cnt rest ↔
      containsWord t rest ∧
        (∀ c ∈ rest, c = p.center_letter ∨ c ∈ p.outer_letters) ∧
        (0 < cnt ∨ p.center_letter ∈ rest) := by
  intro rest
  induction rest with
  | nil =>
    intro t cnt
    constructor
    · rintro ⟨h1, h2⟩
      exact ⟨h1, by simp, Or.inl h2⟩
    · rintro ⟨h1, -, h3 | h3⟩
      · exact ⟨h1, h3⟩
      · exact absurd h3 (List.not_mem_nil _)
  | cons c rest2 ih =>
    intro t cnt
    constructor
    · rintro (⟨rfl, child, hl, hacc⟩ | ⟨hcmem, child, hl, hacc⟩)
      · obtain ⟨hcw, hchars, -⟩ := (ih child (cnt + 1)).mp hacc
        refine ⟨⟨child, hl, hcw⟩, ?_, Or.inr (List.mem_cons_self _ _)⟩
        intro d hd
        rcases List.mem_cons.mp hd with rfl | hd2
        · exact Or.inl rfl
        · exact hchars d hd2
      · obtain ⟨hcw, hchars, hcnt⟩ := (ih child cnt).mp hacc
        refine ⟨⟨child, hl, hcw⟩, ?_, ?_⟩
        · intro d hd
          rcases List.mem_cons.mp hd with rfl | hd2
          · exact Or.inr hcmem
          · exact hchars d hd2
        · rcases hcnt with h | h
          · exact Or.inl h
          · exact Or.inr (List.mem_cons_of_mem _ h)
    · rintro ⟨⟨child, hl, hcw⟩, hchars, hcnt⟩
      by_cases hc : c = p.center_letter
      · subst hc
        left
        refine ⟨rfl, child, hl,
          (ih child (cnt + 1)).mpr ⟨hcw, ?_, Or.inl (Nat.succ_pos cnt)⟩⟩
        intro d hd
        exact hchars d (List.mem_cons_of_mem _ hd)
      · right
        have hcouter : c ∈ p.outer_letters := by
          rcases hchars c (List.mem_cons_self _ _) with h | h
          · exact absurd h hc
          · exact h
        refine ⟨hcouter, child, hl, (ih child cnt).mpr ⟨hcw, ?_, ?_⟩⟩
        · intro d hd
          exact hchars d (List.mem_cons_of_mem _ hd)
        · rcases hcnt with h | h
          · exact Or.inl h
          · rcases List.mem_cons.mp h with h2 | h2
            · exact absurd h2.symm hc
            · exact Or.inr h2

theorem mem_trie_solve {D : List Word} {s : TrieSolver}
    (hs : TrieSolver.new D = some s) (p : Puzzle) (w : Word) :
    w ∈ s.solve p ↔
      (w ∈ D ∧ MIN_LENGTH ≤ byteLen w) ∧
        (∀ c ∈ w, c = p.center_letter ∨ c ∈ p.outer_letters) ∧
        p.center_letter ∈ w := by
  rw [TrieSolver.new] at hs
  cases haux : trieNewAux (.node false [])
      (D.filter (fun w => decide (MIN_LENGTH ≤ byteLen w))) with
  | none =>
    rw [haux] at hs
    exact Option.noConfusion hs
  | some root =>
    rw [haux] at hs
    simp only [Option.map] at hs
    rw [Option.some_inj] at hs
    subst hs
    show w ∈ find_words root p 0 [] ↔ _
    rw [mem_find_words_iff]
    constructor
    · rintro ⟨rest, rfl, hacc⟩
      obtain ⟨hcw, hchars, hcnt⟩ := (accepts_iff p _ root 0).mp hacc
      rcases (containsWord_trieNewAux _ _ _ haux w).mp hcw with hmem | hmem
      · rw [List.mem_filter, decide_eq_true_eq] at hmem
        refine ⟨hmem, hchars, ?_⟩
        rcases hcnt with h | h
        · exact absurd h (by omega)
        · exact h
      · exact absurd hmem (not_containsWord_empty w)
    · rintro ⟨⟨hD, hlen⟩, hchars, hcent⟩
      refine ⟨w, rfl, (accepts_iff p w root 0).mpr ⟨?_, hchars, Or.inr hcent⟩⟩
      exact (containsWord_trieNewAux _ _ _ haux w).mpr
        (Or.inl (by rw [List.mem_filter, decide_eq_true_eq]; exact ⟨hD, hlen⟩))

theorem trieSolverNew_isSome (D : List Word) : (TrieSolver.new D).isSome = true := by
  rw [TrieSolver.new]
  have h := trieNewAux_isSome
    (D.filter (fun w => decide (MIN_LENGTH ≤ byteLen w))) (.node false [])
    (fun w hw => by
      rw [List.mem_filter, decide_eq_true_eq] at hw
      exact byteLen_min_ne_nil hw.2)
  cases haux : trieNewAux (.node false [])
      (D.filter (fun w => decide (MIN_LENGTH ≤ byteLen w))) with
  | none => rw [haux] at h; simp at h
  | some root => rfl

theorem find_words_shape (p : Puzzle) (t : TrieNode) (cnt : Nat)
    (path : List Char) {w : Word} (h : w ∈ find_words t p cnt path) :
    ∃ rest, w = path ++ rest := by
  obtain ⟨rest, hw, -⟩ := (mem_find_words_iff p t cnt path w).mp h
  exact ⟨rest, hw⟩

theorem find_words_outer_shape (letters : List Char)
    (cs : List (Char × TrieNode)) (p : Puzzle) (cnt : Nat) (path : List Char)
    {w : Word} (h : w ∈ find_words_outer letters cs p cnt path) :
    ∃ l ∈ letters, ∃ rest, w = path ++ l :: rest := by
  obtain ⟨l, hl, child, hget, hmem⟩ :=
    (mem_find_words_outer_iff letters cs p cnt path w).mp h
  obtain ⟨rest, hw⟩ := find_words_shape p child cnt (path ++ [l]) hmem
  refine ⟨l, hl, rest, ?_⟩
  rw [hw, List.append_assoc]
  rfl

theorem path_ne_cons_ext (path : List Char) (x : Char) (r : List Char) :
    path ≠ path ++ x :: r := by
  intro h
  have h2 := congrArg List.length h
  rw [List.length_append, List.length_cons] at h2
  omega

theorem nodup_find_words_bounded (p : Puzzle)
    (hcout : p.center_letter ∉ p.outer_letters)
    (hnodup : p.outer_letters.Nodup) (n : Nat) :
    ∀ t, sizeOf t ≤ n → ∀ cnt path, (find_words t p cnt path).Nodup := by
  induction n with
  | zero =>
    intro t ht
    have := sizeOf_trie_pos t
    omega
  | succ n ih =>
    intro t ht cnt path
    have hch : ∀ l child, assocGet l t.children = some child → sizeOf child ≤ n := by
      intro l child hl
      have h1 := sizeOf_assocGet hl
      have h2 := sizeOf_children t
      omega
    have emit_mem : ∀ w : Word,
        w ∈ (if 0 < cnt ∧ t.isWordFlag = true then [path] else ([] : List Word)) →
          w = path := by
      intro w hw
      by_cases hif : 0 < cnt ∧ t.isWordFlag = true
      · rw [if_pos hif, List.mem_singleton] at hw
        exact hw
      · rw [if_neg hif] at hw
        exact absurd hw (List.not_mem_nil w)
    have emit_nodup :
        (if 0 < cnt ∧ t.isWordFlag = true then [path] else ([] : List Word)).Nodup := by
      by_cases hif : 0 < cnt ∧ t.isWordFlag = true
      · rw [if_pos hif]
        exact List.nodup_singleton path
      · rw [if_neg hif]
        exact List.nodup_nil
    have aux : ∀ letters : List Char, letters.Nodup →
        (find_words_outer letters t.children p cnt path).Nodup := by
      intro letters
      induction letters with
      | nil =>
        intro _
        rw [find_words_outer]
        exact List.nodup_nil
      | cons l rest ihl =>
        intro hnd
        obtain ⟨hnd1, hnd2⟩ := List.nodup_cons.mp hnd
        rw [find_words_outer]
        cases hgl : assocGet l t.children with
        | none =>
          simp only [hgl, List.nil_append]
          exact ihl hnd2
        | some child =>
          simp only [hgl]
          apply List.Nodup.append
          · exact ih child (hch _ _ hgl) cnt (path ++ [l])
          · exact ihl hnd2
          · intro w hw1 hw2
            obtain ⟨r1, hw1s⟩ := find_words_shape p child cnt (path ++ [l]) hw1
            obtain ⟨l2, hl2, r2, hw2s⟩ :=
              find_words_outer_shape rest t.children p cnt path hw2
            rw [hw1s, List.append_assoc] at hw2s
            have h3 := List.append_cancel_left hw2s
            injection h3 with h4 h5
            exact hnd1 (h4 ▸ hl2)
    rw [find_words]
    cases hgc : assocGet p.center_letter t.children with
    | none =>
      simp only [hgc, List.append_nil]
      apply List.Nodup.append
      · exact emit_nodup
      · exact aux p.outer_letters hnodup
      · intro w hw1 hw2
        obtain ⟨l2, hl2, r2, hw2s⟩ :=
          find_words_outer_shape p.outer_letters t.children p cnt path hw2
        rw [emit_mem w hw1] at hw2s
        exact path_ne_cons_ext path l2 r2 hw2s
    | some cchild =>
      simp only [hgc]
      apply List.Nodup.append
      · apply List.Nodup.append
        · exact emit_nodup
        · exact ih cchild (hch _ _ hgc) (cnt + 1) (path ++ [p.center_letter])
        · intro w hw1 hw2
          obtain ⟨r1, hw1s⟩ :=
            find_words_shape p cchild (cnt + 1) (path ++ [p.center_letter]) hw2
          rw [List.append_assoc] at hw1s
          rw [emit_mem w hw1] at hw1s
          exact path_ne_cons_ext path p.center_letter r1 hw1s
      · exact aux p.outer_letters hnodup
      · intro w hw1 hw2
        obtain ⟨l2, hl2, r2, hw2s⟩ :=
          find_words_outer_shape p.outer_letters t.children p cnt path hw2
        rcases List.mem_append.mp hw1 with hemit | hcent
        · rw [emit_mem w hemit] at hw2s
          exact path_ne_cons_ext path l2 r2 hw2s
        · obtain ⟨r1, hw1s⟩ :=
            find_words_shape p cchild (cnt + 1) (path ++ [p.center_letter]) hcent
          rw [hw1s, List.append_assoc] at hw2s
          have h3 := List.append_cancel_left hw2s
          injection h3 with h4 h5
          exact hcout (h4 ▸ hl2)

theorem nodup_trie_solve {D : List Word} {s : TrieSolver}
    (hs : TrieSolver.new D = some s) (p : Puzzle)
    (hcout : p.center_letter ∉ p.outer_letters)
    (hnodup : p.outer_letters.Nodup) : (s.solve p).Nodup := by
  rw [TrieSolver.solve]
  exact nodup_find_words_bounded p hcout hnodup (sizeOf s.dictionary)
    s.dictionary le_rfl 0 []

-- Wellformed (all-lowercase) puzzles ----------------------------------------

/-- For a puzzle whose seven letters are lowercase `a`–`z`, the bitmask
per-word conditions say exactly what the naive character test says. -/
theorem az_conditions_iff (p : Puzzle) (hc : p.center_letter ∈ azChars)
    (ho : ∀ l ∈ p.outer_letters, l ∈ azChars) (w : Word) :
    ((∃ c ∈ w, letterIdx c = letterIdx p.center_letter) ∧
      ∀ c ∈ w, letterIdx c = letterIdx p.center_letter ∨
        ∃ o ∈ p.outer_letters, letterIdx o = letterIdx c) ↔
      ((∀ c ∈ w, c = p.center_letter ∨ c ∈ p.outer_letters) ∧
        p.center_letter ∈ w) := by
  rw [mem_azChars_iff] at hc
  constructor
  · rintro ⟨⟨c, hcw, hcidx⟩, hall⟩
    have hceq : c = p.center_letter :=
      letterIdx_injOn (by rw [hcidx]; exact hc) hcidx
    refine ⟨?_, hceq ▸ hcw⟩
    intro d hd
    rcases hall d hd with h | ⟨o, homem, hoidx⟩
    · exact Or.inl (letterIdx_injOn (by rw [h]; exact hc) h)
    · have hoaz := (mem_azChars_iff o).mp (ho o homem)
      have heq : o = d := letterIdx_injOn hoaz hoidx
      exact Or.inr (heq ▸ homem)
  · rintro ⟨hall, hcent⟩
    refine ⟨⟨p.center_letter, hcent, rfl⟩, ?_⟩
    intro d hd
    rcases hall d hd with rfl | hdo
    · exact Or.inl rfl
    · exact Or.inr ⟨d, hdo, rfl⟩

/-- Center-letter containment for the bitmask test, needing only the
center letter to be lowercase. -/
theorem az_center_of_test {p : Puzzle} (hc : p.center_letter ∈ azChars)
    {w : Word} (h : ∃ c ∈ w, letterIdx c = letterIdx p.center_letter) :
    p.center_letter ∈ w := by
  obtain ⟨c, hcw, hcidx⟩ := h
  rw [mem_azChars_iff] at hc
  have hceq : c = p.center_letter :=
    letterIdx_injOn (by rw [hcidx]; exact hc) hcidx
  exact hceq ▸ hcw

-- Claim theorems -------------------------------------------------------------

/-- Claim C1, counterexample: with center letter `'1'` (a non-letter,
mapped to the reserved bit 26) and dictionary `{"2222"}`, the bitmask
solver returns `"2222"` (its `'2'` also maps to bit 26) while the naive
solver rejects it, so the four solvers do not agree on every dictionary
and puzzle. -/
theorem c1_counterexample :
    (['2','2','2','2'] ∈ (BitmaskSolver.new [['2','2','2','2']]).solve
      ⟨'1', ['a','b','c','d','e','f']⟩) ∧
    ¬(['2','2','2','2'] ∈ (NaiveSolver.new [['2','2','2','2']]).solve
      ⟨'1', ['a','b','c','d','e','f']⟩) := by decide

/-- Claim C1 (amended): for every dictionary and every puzzle whose
center letter and outer letters are all lowercase `a`–`z`, the trie,
bitmask, and block-bitmask solvers (the latter for every successfully
constructed positive block size) return exactly the words the naive
solver returns, as sets. -/
theorem c1_solver_equivalence (D : List Word) (p : Puzzle)
    (hc : p.center_letter ∈ azChars)
    (ho : ∀ l ∈ p.outer_letters, l ∈ azChars) :
    (∀ s, TrieSolver.new D = some s →
      ∀ w, w ∈ s.solve p ↔ w ∈ (NaiveSolver.new D).solve p) ∧
    (∀ w, w ∈ (BitmaskSolver.new D).solve p ↔ w ∈ (NaiveSolver.new D).solve p) ∧
    (∀ k, 0 < k → ∃ s, BitmaskBlockSolver.new D k = some s ∧
      ∀ w, w ∈ s.solve p ↔ w ∈ (NaiveSolver.new D).solve p) := by
  refine ⟨?_, ?_, ?_⟩
  · intro s hs w
    rw [mem_trie_solve hs, mem_naive_solve]
    tauto
  · intro w
    rw [mem_bitmask_solve, mem_naive_solve]
    constructor
    · rintro ⟨hD, hlen, hcond⟩
      exact ⟨hD, hlen, (az_conditions_iff p hc ho w).mp hcond⟩
    · rintro ⟨hD, hlen, hcond⟩
      exact ⟨hD, hlen, (az_conditions_iff p hc ho w).mpr hcond⟩
  · intro k hk
    have hex : ∃ s, BitmaskBlockSolver.new D k = some s := by
      rw [BitmaskBlockSolver.new, if_neg (by omega : ¬(k = 0))]
      exact ⟨_, rfl⟩
    obtain ⟨s, hs⟩ := hex
    refine ⟨s, hs, ?_⟩
    intro w
    rw [mem_blocksolver_solve hs, mem_bitmask_solve, mem_naive_solve]
    constructor
    · rintro ⟨hD, hlen, hcond⟩
      exact ⟨hD, hlen, (az_conditions_iff p hc ho w).mp hcond⟩
    · rintro ⟨hD, hlen, hcond⟩
      exact ⟨hD, hlen, (az_conditions_iff p hc ho w).mpr hcond⟩

/-- Claim C1, witness at a concrete all-lowercase puzzle. -/
theorem c1_witness :
    (('a' : Char) ∈ azChars ∧
      ∀ l ∈ (['b','c','d','e','f','g'] : List Char), l ∈ azChars) ∧
    ((∀ s, TrieSolver.new [['a','b','c','d']] = some s →
      ∀ w, w ∈ s.solve ⟨'a', ['b','c','d','e','f','g']⟩ ↔
        w ∈ (NaiveSolver.new [['a','b','c','d']]).solve
          ⟨'a', ['b','c','d','e','f','g']⟩) ∧
    (∀ w, w ∈ (BitmaskSolver.new [['a','b','c','d']]).solve
        ⟨'a', ['b','c','d','e','f','g']⟩ ↔
      w ∈ (NaiveSolver.new [['a','b','c','d']]).solve
        ⟨'a', ['b','c','d','e','f','g']⟩) ∧
    (∀ k, 0 < k → ∃ s, BitmaskBlockSolver.new [['a','b','c','d']] k = some s ∧
      ∀ w, w ∈ s.solve ⟨'a', ['b','c','d','e','f','g']⟩ ↔
        w ∈ (NaiveSolver.new [['a','b','c','d']]).solve
          ⟨'a', ['b','c','d','e','f','g']⟩)) :=
  ⟨⟨by decide, by decide⟩,
   c1_solver_equivalence [['a','b','c','d']] ⟨'a', ['b','c','d','e','f','g']⟩
     (by decide) (by decide)⟩

/-- Claim C2, counterexample: the bitmask solver returns `"2222"` for
the puzzle with center letter `'1'`, and `"2222"` does not contain
`'1'`: a returned word need not contain the center letter when the
center letter is not a lowercase letter. -/
theorem c2_counterexample :
    (['2','2','2','2'] ∈ (BitmaskSolver.new [['2','2','2','2']]).solve
      ⟨'1', ['b','c','d','e','f','g']⟩) ∧
    ('1' : Char) ∉ (['2','2','2','2'] : Word) := by decide

/-- Claim C2 (amended): for every dictionary and every puzzle whose
center letter is a lowercase letter `a`–`z`, every word returned by any
of the four solvers contains at least one occurrence of the center
letter. -/
theorem c2_center_letter (D : List Word) (p : Puzzle)
    (hc : p.center_letter ∈ azChars) :
    (∀ w ∈ (NaiveSolver.new D).solve p, p.center_letter ∈ w) ∧
    (∀ s, TrieSolver.new D = some s →
      ∀ w ∈ s.solve p, p.center_letter ∈ w) ∧
    (∀ w ∈ (BitmaskSolver.new D).solve p, p.center_letter ∈ w) ∧
    (∀ k s, BitmaskBlockSolver.new D k = some s →
      ∀ w ∈ s.solve p, p.center_letter ∈ w) := by
  refine ⟨?_, ?_, ?_, ?_⟩
  · intro w hw
    exact ((mem_naive_solve D p w).mp hw).2.2.2
  · intro s hs w hw
    exact ((mem_trie_solve hs p w).mp hw).2.2
  · intro w hw
    exact az_center_of_test hc ((mem_bitmask_solve D p w).mp hw).2.2.1
  · intro k s hs w hw
    exact az_center_of_test hc
      ((mem_bitmask_solve D p w).mp ((mem_blocksolver_solve hs p w).mp hw)).2.2.1

/-- Claim C2, witness at a concrete lowercase-centered puzzle. -/
theorem c2_witness :
    (('a' : Char) ∈ azChars) ∧
    (∀ w ∈ (NaiveSolver.new [['a','b','c','d']]).solve
        ⟨'a', ['b','c','d','e','f','g']⟩, ('a' : Char) ∈ w) ∧
    (∀ s, TrieSolver.new [['a','b','c','d']] = some s →
      ∀ w ∈ s.solve ⟨'a', ['b','c','d','e','f','g']⟩, ('a' : Char) ∈ w) ∧
    (∀ w ∈ (BitmaskSolver.new [['a','b','c','d']]).solve
        ⟨'a', ['b','c','d','e','f','g']⟩, ('a' : Char) ∈ w) ∧
    (∀ k s, BitmaskBlockSolver.new [['a','b','c','d']] k = some s →
      ∀ w ∈ s.solve ⟨'a', ['b','c','d','e','f','g']⟩, ('a' : Char) ∈ w) :=
  have h := c2_center_letter [['a','b','c','d']] ⟨'a', ['b','c','d','e','f','g']⟩
    (by decide)
  ⟨by decide, h.1, h.2.1, h.2.2.1, h.2.2.2⟩

/-- Claim C3, counterexample: with outer letter `'2'` (mapped to the
reserved bit 26), the bitmask solver returns `"aaa1"`, whose character
`'1'` is neither the center letter `'a'` nor one of the outer letters. -/
theorem c3_counterexample :
    (['a','a','a','1'] ∈ (BitmaskSolver.new [['a','a','a','1']]).solve
      ⟨'a', ['2','b','c','d','e','f']⟩) ∧
    ('1' : Char) ∈ (['a','a','a','1'] : Word) ∧
    ('1' : Char) ≠ 'a' ∧
    ('1' : Char) ∉ (['2','b','c','d','e','f'] : List Char) := by decide

/-- Claim C3 (amended): for every dictionary and every puzzle whose
center letter and outer letters are all lowercase `a`–`z`, every
character of every word returned by any of the four solvers is either
the center letter or one of the outer letters. -/
theorem c3_letter_containment (D : List Word) (p : Puzzle)
    (hc : p.center_letter ∈ azChars)
    (ho : ∀ l ∈ p.outer_letters, l ∈ azChars) :
    (∀ w ∈ (NaiveSolver.new D).solve p,
      ∀ c ∈ w, c = p.center_letter ∨ c ∈ p.outer_letters) ∧
    (∀ s, TrieSolver.new D = some s → ∀ w ∈ s.solve p,
      ∀ c ∈ w, c = p.center_letter ∨ c ∈ p.outer_letters) ∧
    (∀ w ∈ (BitmaskSolver.new D).solve p,
      ∀ c ∈ w, c = p.center_letter ∨ c ∈ p.outer_letters) ∧
    (∀ k s, BitmaskBlockSolver.new D k = some s → ∀ w ∈ s.solve p,
      ∀ c ∈ w, c = p.center_letter ∨ c ∈ p.outer_letters) := by
  refine ⟨?_, ?_, ?_, ?_⟩
  · intro w hw
    exact ((mem_naive_solve D p w).mp hw).2.2.1
  · intro s hs w hw
    exact ((mem_trie_solve hs p w).mp hw).2.1
  · intro w hw
    exact ((az_conditions_iff p hc ho w).mp
      ((mem_bitmask_solve D p w).mp hw).2.2).1
  · intro k s hs w hw
    exact ((az_conditions_iff p hc ho w).mp
      ((mem_bitmask_solve D p w).mp ((mem_blocksolver_solve hs p w).mp hw)).2.2).1

/-- Claim C3, witness at a concrete all-lowercase puzzle. -/
theorem c3_witness :
    (('a' : Char) ∈ azChars ∧
      ∀ l ∈ (['b','c','d','e','f','g'] : List Char), l ∈ azChars) ∧
    (∀ w ∈ (NaiveSolver.new [['a','b','c','d']]).solve
        ⟨'a', ['b','c','d','e','f','g']⟩,
      ∀ c ∈ w, c = 'a' ∨ c ∈ (['b','c','d','e','f','g'] : List Char)) :=
  ⟨⟨by decide, by decide⟩,
   (c3_letter_containment [['a','b','c','d']] ⟨'a', ['b','c','d','e','f','g']⟩
     (by decide) (by decide)).1⟩

/-- Claim C4, counterexample: `"éé"` is two characters long but four
UTF-8 bytes long, so it passes the `MIN_LENGTH` filter (Rust
`String::len` counts bytes) and the naive solver returns it for the
puzzle centered at `'é'` — a returned word shorter than 4 characters. -/
theorem c4_counterexample :
    (['é','é'] ∈ (NaiveSolver.new [['é','é']]).solve
      ⟨'é', ['a','b','c','d','e','f']⟩) ∧
    (['é','é'] : List Char).length < 4 := by decide

/-- Claim C4 (amended): no solver ever returns a word whose UTF-8 byte
length (Rust `String::len`) is smaller than `MIN_LENGTH = 4`, even when
such a word is in the dictionary and satisfies the letter
constraints. -/
theorem c4_min_length (D : List Word) (p : Puzzle) :
    (∀ w ∈ (NaiveSolver.new D).solve p, MIN_LENGTH ≤ byteLen w) ∧
    (∀ s, TrieSolver.new D = some s →
      ∀ w ∈ s.solve p, MIN_LENGTH ≤ byteLen w) ∧
    (∀ w ∈ (BitmaskSolver.new D).solve p, MIN_LENGTH ≤ byteLen w) ∧
    (∀ k s, BitmaskBlockSolver.new D k = some s →
      ∀ w ∈ s.solve p, MIN_LENGTH ≤ byteLen w) := by
  refine ⟨?_, ?_, ?_, ?_⟩
  · intro w hw
    exact ((mem_naive_solve D p w).mp hw).2.1
  · intro s hs w hw
    exact ((mem_trie_solve hs p w).mp hw).1.2
  · intro w hw
    exact ((mem_bitmask_solve D p w).mp hw).2.1
  · intro k s hs w hw
    exact ((mem_bitmask_solve D p w).mp ((mem_blocksolver_solve hs p w).mp hw)).2.1

/-- Claim C4, witness: the naive solver's one returned word at a
concrete input has byte length at least 4. -/
theorem c4_witness :
    (['a','b','c','d'] ∈ (NaiveSolver.new [['a','b','c','d']]).solve
      ⟨'a', ['b','c','d','e','f','g']⟩) ∧
    MIN_LENGTH ≤ byteLen ['a','b','c','d'] :=
  ⟨by decide,
   (c4_min_length [['a','b','c','d']] ⟨'a', ['b','c','d','e','f','g']⟩).1
     ['a','b','c','d'] (by decide)⟩

/-- Claim C5 (confirmed): block-level pruning is sound.  For every
block built by `BitmaskBlock::new` and every puzzle-derived pair of
masks, if either rejection rule fires — `(common_chars_mask AND
forbidden) != 0` or `(missing_chars_mask AND center) == 0` — then no
word stored in the block passes the per-word test, so the rules never
discard a matching word. -/
theorem c5_block_pruning_sound (ws : List Word) (p : Puzzle)
    (mw : BitmaskedWord) (hmw : mw ∈ (BitmaskBlock.new ws).words)
    (hrej : (BitmaskBlock.new ws).common_chars_mask &&&
        forbidden_letter_mask p ≠ 0 ∨
      (BitmaskBlock.new ws).missing_chars_mask &&&
        bitmask_letter p.center_letter = 0) :
    ¬(mw.mask &&& bitmask_letter p.center_letter ≠ 0 ∧
      mw.mask &&& forbidden_letter_mask p = 0) := by
  simp only [BitmaskBlock.new, List.mem_map] at hmw
  obtain ⟨w0, hw0, rfl⟩ := hmw
  rintro ⟨htest1, htest2⟩
  rcases hrej with hrej | hrej
  · exact common_reject_sound hrej hw0 htest2
  · exact htest1 (missing_reject_sound hrej hw0)

/-- Claim C5, witness: a block of the single word `"abcd"` against the
puzzle `z: mnoqrs`, whose forbidden mask meets the block's common
mask. -/
theorem c5_witness :
    ((⟨bitmask_word ['a','b','c','d'], ['a','b','c','d']⟩ : BitmaskedWord) ∈
        (BitmaskBlock.new [['a','b','c','d']]).words ∧
      (BitmaskBlock.new [['a','b','c','d']]).common_chars_mask &&&
        forbidden_letter_mask ⟨'z', ['m','n','o','q','r','s']⟩ ≠ 0) ∧
    ¬((⟨bitmask_word ['a','b','c','d'], ['a','b','c','d']⟩ :
        BitmaskedWord).mask &&&
          bitmask_letter ('z' : Char) ≠ 0 ∧
      (⟨bitmask_word ['a','b','c','d'], ['a','b','c','d']⟩ :
        BitmaskedWord).mask &&&
          forbidden_letter_mask ⟨'z', ['m','n','o','q','r','s']⟩ = 0) :=
  ⟨⟨by decide, by decide⟩,
   c5_block_pruning_sound [['a','b','c','d']] ⟨'z', ['m','n','o','q','r','s']⟩
     ⟨bitmask_word ['a','b','c','d'], ['a','b','c','d']⟩ (by decide)
     (Or.inl (by decide))⟩

/-- Claim C6, counterexample: for the empty dictionary,
`BitmaskBlockSolver::new(D, |D|)` is `new(D, 0)`, which panics in Rust
(`dictionary.len() / chunk_size` divides by zero and `chunks(0)`
asserts), modelled by `none`: there is no solver whose answers could
equal the flat bitmask solver's. -/
theorem c6_counterexample :
    ¬∃ s : BitmaskBlockSolver,
      BitmaskBlockSolver.new ([] : List Word)
        (List.length ([] : List Word)) = some s := by
  rintro ⟨s, hs⟩
  rw [BitmaskBlockSolver.new] at hs
  simp at hs

/-- Claim C6 (amended): for every dictionary `D` and puzzle,
`BitmaskBlockSolver::new(D, 1)` is defined and its answers equal the
flat bitmask solver's as sets; and for every non-empty `D` the same
holds for `BitmaskBlockSolver::new(D, |D|)` (for empty `D` that block
size is zero and construction panics). -/
theorem c6_block_size_invariance (D : List Word) (p : Puzzle) :
    (∃ s, BitmaskBlockSolver.new D 1 = some s ∧
      ∀ w, w ∈ s.solve p ↔ w ∈ (BitmaskSolver.new D).solve p) ∧
    (D ≠ [] → ∃ s, BitmaskBlockSolver.new D D.length = some s ∧
      ∀ w, w ∈ s.solve p ↔ w ∈ (BitmaskSolver.new D).solve p) := by
  constructor
  · have h1 : ∃ s, BitmaskBlockSolver.new D 1 = some s := by
      rw [BitmaskBlockSolver.new, if_neg (by omega : ¬(1 = 0))]
      exact ⟨_, rfl⟩
    obtain ⟨s, hs⟩ := h1
    exact ⟨s, hs, mem_blocksolver_solve hs p⟩
  · intro hD
    have hlen : ¬(D.length = 0) := fun h => hD (List.eq_nil_of_length_eq_zero h)
    have h1 : ∃ s, BitmaskBlockSolver.new D D.length = some s := by
      rw [BitmaskBlockSolver.new, if_neg hlen]
      exact ⟨_, rfl⟩
    obtain ⟨s, hs⟩ := h1
    exact ⟨s, hs, mem_blocksolver_solve hs p⟩

/-- Claim C6, witness at a concrete non-empty dictionary. -/
theorem c6_witness :
    ([['a','b','c','d']] ≠ ([] : List Word)) ∧
    (∃ s, BitmaskBlockSolver.new [['a','b','c','d']]
        (List.length [['a','b','c','d']]) = some s ∧
      ∀ w, w ∈ s.solve ⟨'a', ['b','c','d','e','f','g']⟩ ↔
        w ∈ (BitmaskSolver.new [['a','b','c','d']]).solve
          ⟨'a', ['b','c','d','e','f','g']⟩) :=
  ⟨by decide,
   (c6_block_size_invariance [['a','b','c','d']]
     ⟨'a', ['b','c','d','e','f','g']⟩).2 (by decide)⟩

/-- Claim C7 (confirmed): `bitmask_word` is invariant under permutation
and duplication of a word's characters — any word with the same set of
distinct characters gets the same mask — and the mask equals the
bitwise OR of `bitmask_letter` over the distinct characters of the
word. -/
theorem c7_mask_invariance (w w2 : Word) :
    (w2.Perm w → bitmask_word w2 = bitmask_word w) ∧
    ((∀ c, c ∈ w2 ↔ c ∈ w) → bitmask_word w2 = bitmask_word w) ∧
    bitmask_word w = w.dedup.foldl (fun m c => m ||| bitmask_letter c) 0 := by
  have hext : ∀ (u v : Word), (∀ c, c ∈ u ↔ c ∈ v) →
      bitmask_word u = bitmask_word v := by
    intro u v he
    apply Nat.eq_of_testBit_eq
    intro j
    rw [Bool.eq_iff_iff, testBit_bitmask_word, testBit_bitmask_word]
    constructor
    · rintro ⟨c, hc, hj⟩
      exact ⟨c, (he c).mp hc, hj⟩
    · rintro ⟨c, hc, hj⟩
      exact ⟨c, (he c).mpr hc, hj⟩
  refine ⟨fun hperm => hext _ _ (fun c => hperm.mem_iff), hext _ _, ?_⟩
  apply Nat.eq_of_testBit_eq
  intro j
  rw [Bool.eq_iff_iff, testBit_bitmask_word, testBit_foldl_or]
  simp [List.any_eq_true, testBit_bitmask_letter, List.mem_dedup,
    Nat.zero_testBit]

/-- Claim C7, witness: a permutation with a repeated letter keeps the
mask. -/
theorem c7_witness :
    (['e','b','e'] : Word).Perm ['b','e','e'] ∧
    bitmask_word ['e','b','e'] = bitmask_word ['b','e','e'] :=
  ⟨by decide, (c7_mask_invariance ['b','e','e'] ['e','b','e']).1 (by decide)⟩

/-- Claim C8, counterexample: with the malformed outer letter `'2'`
also mapping to the reserved bit 26, the bitmask solver returns
`"aaa1"` although `'1'` is outside `a`–`z` — the poison bit can match a
malformed puzzle. -/
theorem c8_counterexample :
    ('1' : Char) ∉ azChars ∧
    (['a','a','a','1'] ∈ (BitmaskSolver.new [['a','a','a','1']]).solve
      ⟨'a', ['2','b','c','d','e','f']⟩) := by decide

/-- Claim C8 (amended): for every dictionary and every puzzle whose
center letter and outer letters are all lowercase `a`–`z`, a dictionary
word containing any character outside `a`–`z` is never returned by the
bitmask-based solvers: such characters map to the reserved bit 26,
which no well-formed puzzle mask sets. -/
theorem c8_poison_bit (D : List Word) (p : Puzzle)
    (hc : p.center_letter ∈ azChars)
    (ho : ∀ l ∈ p.outer_letters, l ∈ azChars)
    (w : Word) (c : Char) (hcw : c ∈ w) (hcnaz : c ∉ azChars) :
    w ∉ (BitmaskSolver.new D).solve p ∧
    (∀ k s, BitmaskBlockSolver.new D k = some s → w ∉ s.solve p) := by
  have hnot : ¬(w ∈ (BitmaskSolver.new D).solve p) := by
    intro hw
    have hall := ((mem_bitmask_solve D p w).mp hw).2.2.2
    rcases hall c hcw with h | ⟨o, homem, hoidx⟩
    · rw [letterIdx_of_not_mem hcnaz] at h
      exact (mem_azChars_iff p.center_letter).mp hc h.symm
    · rw [letterIdx_of_not_mem hcnaz] at hoidx
      exact (mem_azChars_iff o).mp (ho o homem) hoidx
  refine ⟨hnot, ?_⟩
  intro k s hs hw
  exact hnot ((mem_blocksolver_solve hs p w).mp hw)

/-- Claim C8, witness: under an all-lowercase puzzle the word `"abc1"`
(containing `'1'`) is returned by neither bitmask solver. -/
theorem c8_witness :
    (('a' : Char) ∈ azChars ∧
      (∀ l ∈ (['b','c','d','e','f','g'] : List Char), l ∈ azChars) ∧
      ('1' : Char) ∈ (['a','b','c','1'] : Word) ∧ ('1' : Char) ∉ azChars) ∧
    (['a','b','c','1'] ∉ (BitmaskSolver.new [['a','b','c','1']]).solve
        ⟨'a', ['b','c','d','e','f','g']⟩ ∧
      ∀ k s, BitmaskBlockSolver.new [['a','b','c','1']] k = some s →
        ['a','b','c','1'] ∉ s.solve ⟨'a', ['b','c','d','e','f','g']⟩) :=
  ⟨⟨by decide, by decide, by decide, by decide⟩,
   c8_poison_bit [['a','b','c','1']] ⟨'a', ['b','c','d','e','f','g']⟩
     (by decide) (by decide) ['a','b','c','1'] '1' (by decide) (by decide)⟩

/-- Claim C9 (confirmed): for every puzzle whose center letter and
outer letters are mutually distinct, the trie solver returns each word
at most once, for every dictionary — including dictionaries with
duplicate entries, which the trie's boolean `is_word` flag collapses. -/
theorem c9_trie_no_duplicates (D : List Word) (p : Puzzle)
    (hcout : p.center_letter ∉ p.outer_letters)
    (hnodup : p.outer_letters.Nodup) :
    ∀ s, TrieSolver.new D = some s → (s.solve p).Nodup := by
  intro s hs
  exact nodup_trie_solve hs p hcout hnodup

/-- Claim C9, witness: a dictionary with a duplicated entry still
yields a duplicate-free answer list. -/
theorem c9_witness :
    (('a' : Char) ∉ (['b','c','d','e','f','g'] : List Char) ∧
      (['b','c','d','e','f','g'] : List Char).Nodup) ∧
    ((((TrieSolver.new [['a','b','c','d'], ['a','b','c','d']]).getD
        ⟨.node false []⟩).solve ⟨'a', ['b','c','d','e','f','g']⟩).Nodup) :=
  ⟨⟨by decide, by decide⟩,
   c9_trie_no_duplicates [['a','b','c','d'], ['a','b','c','d']]
     ⟨'a', ['b','c','d','e','f','g']⟩ (by decide) (by decide) _ rfl⟩

/-- Claim C10 (confirmed): trie construction is total: for every input
dictionary `TrieSolver::new` succeeds (no `word.remove(0)` panic is
reachable), because `TrieNode::add` succeeds on every non-empty word
and only words of byte length ≥ 4 — hence non-empty — are inserted. -/
theorem c10_trie_construction_total (D : List Word) :
    (TrieSolver.new D).isSome = true ∧
    ∀ (t : TrieNode) (w : Word), w ≠ [] → (t.add w).isSome = true :=
  ⟨trieSolverNew_isSome D, fun t _ hw => add_isSome t hw⟩

/-- Claim C10, witness at a concrete dictionary and a concrete
non-empty word. -/
theorem c10_witness :
    ((['a'] : Word) ≠ []) ∧
    ((TrieSolver.new [['a','b','c','d']]).isSome = true ∧
      ((TrieNode.node false []).add ['a']).isSome = true) :=
  ⟨by decide,
   (c10_trie_construction_total [['a','b','c','d']]).1,
   (c10_trie_construction_total [['a','b','c','d']]).2
     (TrieNode.node false []) ['a'] (by decide)⟩
